import Mathlib

/-!
# Waveform generator (`main.c`): embedding and verified properties

The C program keeps one global `WaveParams` record, a generation thread that
turns it into 16-bit samples and a keyboard thread that nudges frequency and
amplitude.  This file embeds the sequential content of those functions.

Modelling conventions

* `int` values are `Int`; every integer operation that the embedded code
  performs on them (`steps / 2`, `steps - i`, comparisons) stays far inside
  the 32-bit range for the inputs considered, and `/` on `int` is the
  truncating division `Int.tdiv`.
* `double` values are rationals, in two readings. In the exact reading
  (`sampleValue`, `quantize`, `handleArrow`) every operation returns the exact
  result; it is used where the property does not depend on the last bit. In
  the binary64 reading (`fl`, `handleArrow64`, `quantize64`,
  `sawtoothValue64`, `delay64`, `timespec64`) every operation is rounded to
  the nearest binary64 number, ties to even, with gradual underflow and
  overflow to infinity; `increaseAmplitudeFl` takes the rounding as a
  parameter.
* A `double` division whose divisor is zero has no finite value (IEEE-754
  gives an infinity or a NaN, which every later operation keeps non-finite);
  such a result is `none`, and so is an operation that overflows.
* A conversion to an integer type is defined by C only when the truncated
  value fits the type; otherwise it is `none`.
* `sin` comes from the C library and is a parameter of the embedding.
* `atof` and `atoi` are parameters as well, and the outcome of the `fscanf`
  call of `load_config` is the list of conversions that succeeded.
* The concurrent phase is a machine whose schedules interleave the statements
  of the two threads and the interrupt handler.
-/

namespace Waveform

/-! ## Constants and data model -/

/-- The macro `MAX_VALUE`, `0xFFFF`. -/
def MAX_VALUE : ℚ := 65535

/-- The macro `PI`, the decimal literal `3.14159265358979323846`. -/
def PI : ℚ := 314159265358979323846 / 100000000000000000000

/-- The enumeration `WaveType`. -/
inductive WaveType where
  | WAVE_SINE
  | WAVE_SQUARE
  | WAVE_TRIANGULAR
  | WAVE_SAWTOOTH
  | WAVE_ARBITRARY
  deriving DecidableEq, Repr

/-- The record `WaveParams`. -/
structure WaveParams where
  type : WaveType
  frequency : ℚ
  amplitude : ℚ
  steps : Int
  deriving DecidableEq, Repr

/-! ## Arithmetic helpers -/

/-- Division of two `double`s: no finite value when the divisor is zero. -/
def fdiv (a b : ℚ) : Option ℚ :=
  if b = 0 then none else some (a / b)

/-- Truncation toward zero, the integral part kept by a C conversion. -/
def truncate (x : ℚ) : Int :=
  if 0 ≤ x then ⌊x⌋ else ⌈x⌉

/-- The conversion `(unsigned int) x` for a 32-bit `unsigned int`: defined when
the truncated value is representable. -/
def toUnsigned (x : ℚ) : Option Nat :=
  if 0 ≤ truncate x ∧ truncate x < 4294967296 then some (truncate x).toNat else none

/-! ## Sample computation in `waveform_thread` -/

/-- The body of the `switch (params.type)` in `waveform_thread`: the value of
sample `i` under the snapshot `params`. -/
def sampleValue (sin : ℚ → ℚ) (params : WaveParams) (i : Int) : Option ℚ :=
  match params.type with
  | .WAVE_SINE =>
    (fdiv (2 * PI * i) params.steps).map fun angle =>
      ((sin angle + 1) / 2) * params.amplitude
  | .WAVE_SQUARE =>
    some (if i < params.steps.tdiv 2 then 0 else params.amplitude)
  | .WAVE_TRIANGULAR =>
    if i < params.steps.tdiv 2 then
      (fdiv i (params.steps.tdiv 2 : Int)).map fun r => r * params.amplitude
    else
      (fdiv (params.steps - i : Int) (params.steps.tdiv 2 : Int)).map fun r =>
        r * params.amplitude
  | .WAVE_SAWTOOTH =>
    (fdiv i params.steps).map fun r => r * params.amplitude
  | .WAVE_ARBITRARY =>
    (fdiv (2 * PI * i) params.steps).map fun angle =>
      ((sin angle + 1) / 2) * params.amplitude

/-- The quantisation `(unsigned int)(value * MAX_VALUE)` with the product taken
exactly; `quantize64` rounds the product first. -/
def quantize (value : ℚ) : Option Nat :=
  toUnsigned (value * MAX_VALUE)

/-- The `output` of one loop iteration: sample value, then quantisation. -/
def outputSample (sin : ℚ → ℚ) (params : WaveParams) (i : Int) : Option Nat :=
  (sampleValue sin params i).bind quantize

/-! ## Parameter adjustments in `keyboard_thread` -/

/-- Up arrow: `frequency += 0.1`. -/
def increaseFrequency (f : ℚ) : ℚ :=
  f + 1 / 10

/-- Down arrow: `if (frequency > 0.1) frequency -= 0.1`, in the exact reading
with the decimal 0.1; `handleArrow64` is the binary64 reading. -/
def decreaseFrequency (f : ℚ) : ℚ :=
  if f > 1 / 10 then f - 1 / 10 else f

/-- Right arrow: below 1.0 add 0.05 and cap the sum at 1.0. -/
def increaseAmplitude (a : ℚ) : ℚ :=
  if a < 1 then
    if a + 1 / 20 > 1 then 1 else a + 1 / 20
  else a

/-- Left arrow: above 0.05 subtract 0.05, otherwise set 0.0. -/
def decreaseAmplitude (a : ℚ) : ℚ :=
  if a > 1 / 20 then a - 1 / 20 else 0

/-- Right arrow with the rounding of the `double` addition made explicit:
`rnd x` is the `double` stored for the exact sum `x`. -/
def increaseAmplitudeFl (rnd : ℚ → ℚ) (a : ℚ) : ℚ :=
  if a < 1 then
    if rnd (a + 1 / 20) > 1 then 1 else rnd (a + 1 / 20)
  else a

/-- The byte `'A'` that ends the escape sequence of the Up arrow. -/
def KEY_UP : Int := 65

/-- The byte `'B'` that ends the escape sequence of the Down arrow. -/
def KEY_DOWN : Int := 66

/-- The byte `'C'` that ends the escape sequence of the Right arrow. -/
def KEY_RIGHT : Int := 67

/-- The byte `'D'` that ends the escape sequence of the Left arrow. -/
def KEY_LEFT : Int := 68

/-- The block of `keyboard_thread` run under `param_mutex` once the byte
`arrow` that follows `ESC [` has been read. -/
def handleArrow (arrow : Int) (p : WaveParams) : WaveParams :=
  if arrow = KEY_UP then
    { p with frequency := increaseFrequency p.frequency }
  else if arrow = KEY_DOWN then
    { p with frequency := decreaseFrequency p.frequency }
  else if arrow = KEY_RIGHT then
    { p with amplitude := increaseAmplitude p.amplitude }
  else if arrow = KEY_LEFT then
    { p with amplitude := decreaseAmplitude p.amplitude }
  else p

/-- All the arrow bytes the keyboard thread handles in succession. -/
def applyArrows (arrows : List Int) (p : WaveParams) : WaveParams :=
  arrows.foldl (fun q arrow => handleArrow arrow q) p

/-! ## Configuration file and command line -/

/-- The function `parse_waveform`: a chain of `strcmp` tests with Sine as the
final default. -/
def parse_waveform (waveform : String) : WaveType :=
  if waveform = "sine" then .WAVE_SINE
  else if waveform = "square" then .WAVE_SQUARE
  else if waveform = "triangular" then .WAVE_TRIANGULAR
  else if waveform = "sawtooth" then .WAVE_SAWTOOTH
  else if waveform = "arbitrary" then .WAVE_ARBITRARY
  else .WAVE_SINE

/-- The `switch` of `save_config` that picks `type_str`, the name written to
the file. -/
def type_str (t : WaveType) : String :=
  match t with
  | .WAVE_SINE => "sine"
  | .WAVE_SQUARE => "square"
  | .WAVE_TRIANGULAR => "triangular"
  | .WAVE_SAWTOOTH => "sawtooth"
  | .WAVE_ARBITRARY => "arbitrary"

/-- What the library call `fscanf(fp, "%31s %lf %lf %d", ...)` did on the
file: the conversions that succeeded, in order, each with the value it stored
through its pointer argument. The call returns their number. A file holding
only `sine 2.0` gives `two "sine" 2`. -/
inductive ScanResult where
  | zero
  | one (type : String)
  | two (type : String) (frequency : ℚ)
  | three (type : String) (frequency : ℚ) (amplitude : ℚ)
  | four (type : String) (frequency : ℚ) (amplitude : ℚ) (steps : Int)
  deriving DecidableEq, Repr

/-- The return value of the `fscanf` call. -/
def ScanResult.count : ScanResult → Nat
  | .zero => 0
  | .one _ => 1
  | .two _ _ => 2
  | .three _ _ _ => 3
  | .four _ _ _ _ => 4

/-- The function `load_config`. The file is `none` when `fopen` fails. The
numeric conversions store straight into the fields of `*params`; the name goes
to a local buffer and is parsed only when all four conversions succeeded. -/
def load_config (file : Option ScanResult) (params : WaveParams) : WaveParams :=
  match file with
  | none => params
  | some .zero => params
  | some (.one _) => params
  | some (.two _ frequency) => { params with frequency := frequency }
  | some (.three _ frequency amplitude) =>
    { params with frequency := frequency, amplitude := amplitude }
  | some (.four type frequency amplitude steps) =>
    { type := parse_waveform type, frequency := frequency, amplitude := amplitude,
      steps := steps }

/-- The default parameters that `main` stores first. -/
def defaultParams : WaveParams :=
  { type := .WAVE_SINE, frequency := 1, amplitude := 1, steps := 100 }

/-- The command-line overrides of `main`, `argc` being the length of `argv`.
The library conversions `atof` and `atoi` are parameters. -/
def cliOverrides (atof : String → ℚ) (atoi : String → Int) (argv : List String)
    (p : WaveParams) : WaveParams :=
  let p1 := if argv.length > 1 then { p with type := parse_waveform (argv.getD 1 "") } else p
  let p2 :=
    if argv.length > 2 then
      if atof (argv.getD 2 "") > 0 then { p1 with frequency := atof (argv.getD 2 "") } else p1
    else p1
  let p3 :=
    if argv.length > 3 then
      if atof (argv.getD 3 "") ≥ 0 ∧ atof (argv.getD 3 "") ≤ 1 then
        { p2 with amplitude := atof (argv.getD 3 "") }
      else p2
    else p2
  if argv.length > 4 then
    if atoi (argv.getD 4 "") > 0 then { p3 with steps := atoi (argv.getD 4 "") } else p3
  else p3

/-- The parameters in `current_params` when `main` creates the two threads:
defaults, then `load_config`, then the command-line overrides. -/
def startupParams (atof : String → ℚ) (atoi : String → Int) (file : Option ScanResult)
    (argv : List String) : WaveParams :=
  cliOverrides atof atoi argv (load_config file defaultParams)

/-- The three range conditions on the parameters. -/
def WaveParams.Valid (p : WaveParams) : Prop :=
  0 < p.frequency ∧ 0 ≤ p.amplitude ∧ p.amplitude ≤ 1 ∧ 0 < p.steps

instance (p : WaveParams) : Decidable p.Valid := by
  unfold WaveParams.Valid
  infer_instance

/-! ## The two threads as an interleaved machine

The threads of `main` run concurrently over `run_flag`, `current_params` and
`param_mutex`. Their interleavings are the schedules of one machine whose
steps are the statements of `waveform_thread` and `keyboard_thread`; the
structure copy `params = current_params` takes one step per field. The
library mutex is a cell that holds its owner, and a thread that finds it taken
does not advance. -/

/-- The two threads created by `main`. -/
inductive Thread where
  | generator
  | keyboard
  deriving DecidableEq, Repr

/-- Control points of `waveform_thread`. -/
inductive GenPc where
  | whileCheck
  | lock
  | copyType
  | copyFrequency
  | copyAmplitude
  | copySteps
  | unlock
  | forCheck
  | body
  | exited
  deriving DecidableEq, Repr

/-- A decoded key: the byte after `ESC [`, or one of `q` and `Q`. -/
inductive KeyEvent where
  | arrow (code : Int)
  | quit
  deriving DecidableEq, Repr

/-- Control points of `keyboard_thread`. -/
inductive KbPc where
  | whileCheck
  | poll
  | lock (arrow : Int)
  | update (arrow : Int)
  | unlock
  | exited
  deriving DecidableEq, Repr

/-- The shared variables, the locals of the generation thread, the control
points, the lines printed so far, and two records kept for the proofs: every
completed copy of the parameters and every value `current_params` has had. -/
structure Sys where
  run_flag : Bool
  current_params : WaveParams
  mutex : Option Thread
  genPc : GenPc
  params : WaveParams
  i : Int
  kbPc : KbPc
  output : List (Option Nat)
  snapshots : List WaveParams
  history : List WaveParams

/-- One statement of `waveform_thread`. -/
def genStep (sin : ℚ → ℚ) (s : Sys) : Sys :=
  match s.genPc with
  | .whileCheck => if s.run_flag then { s with genPc := .lock } else { s with genPc := .exited }
  | .lock =>
    match s.mutex with
    | none => { s with mutex := some .generator, genPc := .copyType }
    | some _ => s
  | .copyType =>
    { s with params := { s.params with type := s.current_params.type },
             genPc := .copyFrequency }
  | .copyFrequency =>
    { s with params := { s.params with frequency := s.current_params.frequency },
             genPc := .copyAmplitude }
  | .copyAmplitude =>
    { s with params := { s.params with amplitude := s.current_params.amplitude },
             genPc := .copySteps }
  | .copySteps =>
    { s with params := { s.params with steps := s.current_params.steps },
             genPc := .unlock }
  | .unlock =>
    { s with mutex := none, snapshots := s.params :: s.snapshots, i := 0,
             genPc := .forCheck }
  | .forCheck =>
    if s.i < s.params.steps ∧ s.run_flag then { s with genPc := .body }
    else { s with genPc := .whileCheck }
  | .body =>
    { s with output := s.output ++ [outputSample sin s.params s.i], i := s.i + 1,
             genPc := .forCheck }
  | .exited => s

/-- One statement of `keyboard_thread`; `key` is what the terminal holds when
the thread polls it. -/
def kbStep (key : Option KeyEvent) (s : Sys) : Sys :=
  match s.kbPc with
  | .whileCheck => if s.run_flag then { s with kbPc := .poll } else { s with kbPc := .exited }
  | .poll =>
    match key with
    | none => { s with kbPc := .whileCheck }
    | some (.arrow code) => { s with kbPc := .lock code }
    | some .quit => { s with run_flag := false, kbPc := .whileCheck }
  | .lock arrow =>
    match s.mutex with
    | none => { s with mutex := some .keyboard, kbPc := .update arrow }
    | some _ => s
  | .update arrow =>
    { s with current_params := handleArrow arrow s.current_params,
             history := handleArrow arrow s.current_params :: s.history,
             kbPc := .unlock }
  | .unlock => { s with mutex := none, kbPc := .whileCheck }
  | .exited => s

/-- What can happen next: a statement of either thread, or the interrupt
handler `sigint_handler`. -/
inductive Action where
  | gen
  | kb (key : Option KeyEvent)
  | sigint
  deriving DecidableEq, Repr

/-- One step of the machine. -/
def step (sin : ℚ → ℚ) (a : Action) (s : Sys) : Sys :=
  match a with
  | .gen => genStep sin s
  | .kb key => kbStep key s
  | .sigint => { s with run_flag := false }

/-- The state reached after a schedule. -/
def run (sin : ℚ → ℚ) (sched : List Action) (s : Sys) : Sys :=
  sched.foldl (fun t a => step sin a t) s

/-- The state in which `main` creates the threads: `p` is `current_params`,
`loc` the not yet assigned local `params` of the generation thread. -/
def initSys (p loc : WaveParams) : Sys :=
  { run_flag := true, current_params := p, mutex := none, genPc := .whileCheck,
    params := loc, i := 0, kbPc := .whileCheck, output := [], snapshots := [],
    history := [p] }

/-! ## Binary64 arithmetic

The definitions above read every `double` operation as exact. The ones below
round each operation as IEEE-754 binary64 does: to the nearest number with a
53-bit significand, ties to the even significand, gradual underflow below
`2^-1022` and overflow to infinity from `2^1024`. -/

/-- The nearest integer, the even one of the two on a tie. -/
def roundHalfEven (q : ℚ) : Int :=
  if q - ⌊q⌋ < 1 / 2 then ⌊q⌋
  else if 1 / 2 < q - ⌊q⌋ then ⌊q⌋ + 1
  else if ⌊q⌋ % 2 = 0 then ⌊q⌋
  else ⌊q⌋ + 1

/-- The exponent of the last significand bit of the binary64 numbers around
`x`: 52 below the binary exponent of `x`, and `-1074` for the subnormal range. -/
def ulpExp (x : ℚ) : Int :=
  max (Int.log 2 |x| - 52) (-1074)

/-- Rounding to the nearest binary64 number, the exponent not bounded above. -/
def flR (x : ℚ) : ℚ :=
  roundHalfEven (x / 2 ^ ulpExp x) * 2 ^ ulpExp x

/-- The binary64 value stored for the exact result `x`; `none` when the
rounded magnitude reaches `2^1024` and the stored value is an infinity. -/
def fl (x : ℚ) : Option ℚ :=
  if |flR x| < 2 ^ 1024 then some (flR x) else none

/-- The rationals that are finite binary64 numbers. -/
def IsDouble (x : ℚ) : Prop :=
  fl x = some x

instance (x : ℚ) : Decidable (IsDouble x) := by
  unfold IsDouble
  infer_instance

/-- A significand of at most 53 bits times a power of two not below `2^-1074`. -/
def IsRep (x : ℚ) : Prop :=
  ∃ m e : Int, -1074 ≤ e ∧ |m| < 2 ^ 53 ∧ x = m * 2 ^ e

/-- Binary64 division of two `double`s: no finite value on a zero divisor. -/
def fdiv64 (a b : ℚ) : Option ℚ :=
  if b = 0 then none else fl (a / b)

/-- The `double` that the literal `0.1` denotes. -/
def DOUBLE_0_1 : ℚ := 3602879701896397 / 36028797018963968

/-- The `double` that the literal `0.05` denotes. -/
def DOUBLE_0_05 : ℚ := 3602879701896397 / 72057594037927936

/-- The block of `keyboard_thread` run under `param_mutex`, in binary64; `none`
when the stored field is not finite. -/
def handleArrow64 (arrow : Int) (p : WaveParams) : Option WaveParams :=
  if arrow = KEY_UP then
    (fl (p.frequency + DOUBLE_0_1)).map fun f => { p with frequency := f }
  else if arrow = KEY_DOWN then
    if p.frequency > DOUBLE_0_1 then
      (fl (p.frequency - DOUBLE_0_1)).map fun f => { p with frequency := f }
    else some p
  else if arrow = KEY_RIGHT then
    if p.amplitude < 1 then
      (fl (p.amplitude + DOUBLE_0_05)).map fun a =>
        if a > 1 then { p with amplitude := 1 } else { p with amplitude := a }
    else some p
  else if arrow = KEY_LEFT then
    if p.amplitude > DOUBLE_0_05 then
      (fl (p.amplitude - DOUBLE_0_05)).map fun a => { p with amplitude := a }
    else some { p with amplitude := 0 }
  else some p

/-- The arrow bytes handled in succession, in binary64. -/
def applyArrows64 (arrows : List Int) (p : WaveParams) : Option WaveParams :=
  arrows.foldlM (fun q arrow => handleArrow64 arrow q) p

/-- The quantisation `(unsigned int)(value * MAX_VALUE)` in binary64: the
product is rounded before the conversion truncates it. -/
def quantize64 (value : ℚ) : Option Nat :=
  (fl (value * MAX_VALUE)).bind toUnsigned

/-- The Sawtooth branch `((double)i / params.steps) * params.amplitude` in
binary64; `i` and `steps` are 32-bit and convert exactly. -/
def sawtoothValue64 (params : WaveParams) (i : Int) : Option ℚ :=
  (fdiv64 i params.steps).bind fun r => fl (r * params.amplitude)

/-- The doubles `period` and `delay` of `waveform_thread` in binary64. -/
def delay64 (params : WaveParams) : Option ℚ :=
  (fdiv64 1 params.frequency).bind fun period => fdiv64 period params.steps

/-- The conversion of a `double` to a 64-bit signed integer (`time_t`,
`long`): defined when the truncated value is representable. -/
def toInt64 (x : ℚ) : Option Int :=
  if -9223372036854775808 ≤ truncate x ∧ truncate x < 9223372036854775808 then
    some (truncate x)
  else none

/-- The fields `tv_sec = (time_t) delay` and
`tv_nsec = (long)((delay - tv_sec) * 1e9)` in binary64. -/
def timespec64 (d : ℚ) : Option (Int × Int) :=
  (toInt64 d).bind fun sec =>
    (fl (sec : ℚ)).bind fun secd =>
      (fl (d - secd)).bind fun frac =>
        (fl (frac * 1000000000)).bind fun ns =>
          (toInt64 ns).map fun nsec => (sec, nsec)

/-! ## Proof-side measures and invariants of the machine -/

/-- Samples already printed plus the one the loop body is about to print. -/
def committed (s : Sys) : Nat :=
  s.output.length + (if s.genPc = .body then 1 else 0)

/-- The control points of `waveform_thread` between its lock and unlock. -/
def GenPc.inSection : GenPc → Bool
  | .copyType | .copyFrequency | .copyAmplitude | .copySteps | .unlock => true
  | _ => false

/-- The control points of `keyboard_thread` between its lock and unlock. -/
def KbPc.inSection : KbPc → Bool
  | .update _ | .unlock => true
  | _ => false

/-- The fields already copied at a control point agree with the source. -/
def Agrees (pc : GenPc) (loc cur : WaveParams) : Prop :=
  match pc with
  | .copyFrequency => loc.type = cur.type
  | .copyAmplitude => loc.type = cur.type ∧ loc.frequency = cur.frequency
  | .copySteps =>
    loc.type = cur.type ∧ loc.frequency = cur.frequency ∧ loc.amplitude = cur.amplitude
  | .unlock => loc = cur
  | _ => True

/-- A thread inside its critical section owns the mutex, the part of the copy
made so far agrees with `current_params`, and every completed copy, like the
current value, is in the history. -/
def CopyInv (s : Sys) : Prop :=
  (∀ x ∈ s.snapshots, x ∈ s.history) ∧ s.current_params ∈ s.history ∧
  (s.genPc.inSection = true → s.mutex = some .generator) ∧
  (s.kbPc.inSection = true → s.mutex = some .keyboard) ∧
  Agrees s.genPc s.params s.current_params

/-! ## A table-driven sine -/

/-- A `sin` given by its values at the multiples of `PI / 2` that a four-step
cycle uses. -/
def sinQuarterTurns (x : ℚ) : ℚ :=
  if x = PI / 2 then 1 else if x = 3 * PI / 2 then -1 else 0

/-! ## Basic facts about the helpers -/

theorem tdiv_two_eq_of_nonneg {n : Int} (h : 0 ≤ n) : n.tdiv 2 = n / 2 :=
  Int.tdiv_eq_ediv h (by norm_num)

theorem fdiv_of_ne_zero {a b : ℚ} (h : b ≠ 0) : fdiv a b = some (a / b) := by
  simp [fdiv, h]

theorem fdiv_zero_right (a : ℚ) : fdiv a 0 = none := by
  simp [fdiv]

theorem increaseAmplitudeFl_id (a : ℚ) : increaseAmplitudeFl id a = increaseAmplitude a :=
  rfl

/-! ## Range of the sample value -/

/-- C1: with the snapshot `{Triangular, amplitude 1.0, steps 3}` the sample of
index 1 is computed in the second branch as `(3 - 1) / (3 / 2) * 1.0 = 2.0`,
which is outside `[0, amplitude]`; the quantised output `131070` does not fit
16 bits. -/
theorem triangular_odd_steps_exceeds_amplitude (sin : ℚ → ℚ) (f : ℚ) :
    sampleValue sin ⟨.WAVE_TRIANGULAR, f, 1, 3⟩ 1 = some 2 ∧
    ¬ ((2 : ℚ) ≤ (⟨.WAVE_TRIANGULAR, f, 1, 3⟩ : WaveParams).amplitude) ∧
    outputSample sin ⟨.WAVE_TRIANGULAR, f, 1, 3⟩ 1 = some 131070 ∧
    ¬ ((131070 : Nat) ≤ 65535) := by
  refine ⟨?_, ?_, ?_, ?_⟩
  · norm_num [sampleValue, fdiv, Int.tdiv]
  · norm_num
  · norm_num [outputSample, sampleValue, fdiv, Int.tdiv, quantize, toUnsigned, truncate,
      MAX_VALUE]
    rfl
  · norm_num

/-- Away from an odd number of Triangular steps the sample is in range: for
steps `>= 2`, an index `0 <= i < steps`, an amplitude `A >= 0` and a `sin`
with values in `[-1, 1]`, every kind other than Triangular, and Triangular
with an even number of steps, yields a value in `[0, A]`. -/
theorem sampleValue_mem_range_of_not_odd_triangular (sin : ℚ → ℚ)
    (hsin : ∀ x : ℚ, -1 ≤ sin x ∧ sin x ≤ 1) (p : WaveParams) (i : Int)
    (hs : 2 ≤ p.steps) (hi : 0 ≤ i) (hlt : i < p.steps) (hA : 0 ≤ p.amplitude)
    (hk : p.type ≠ .WAVE_TRIANGULAR ∨ p.steps % 2 = 0) :
    ∃ v : ℚ, sampleValue sin p i = some v ∧ 0 ≤ v ∧ v ≤ p.amplitude := by
  have hq : ((p.steps : Int) : ℚ) ≠ 0 := by
    have : p.steps ≠ 0 := by omega
    exact_mod_cast this
  have hqpos : (0 : ℚ) < p.steps := by exact_mod_cast (by omega : (0 : Int) < p.steps)
  have hiq : (0 : ℚ) ≤ i := by exact_mod_cast hi
  have hltq : (i : ℚ) < p.steps := by exact_mod_cast hlt
  have sine : ∀ x : ℚ, 0 ≤ (sin x + 1) / 2 * p.amplitude ∧
      (sin x + 1) / 2 * p.amplitude ≤ p.amplitude := by
    intro x
    obtain ⟨h1, h2⟩ := hsin x
    constructor
    · apply mul_nonneg _ hA; linarith
    · have : (sin x + 1) / 2 ≤ 1 := by linarith
      nlinarith
  have ht : p.steps.tdiv 2 = p.steps / 2 := tdiv_two_eq_of_nonneg (by omega)
  cases hty : p.type with
  | WAVE_SINE =>
    exact ⟨(sin (2 * PI * i / p.steps) + 1) / 2 * p.amplitude,
      by simp only [sampleValue, hty, fdiv, hq, if_false, Option.map_some'], sine _⟩
  | WAVE_SQUARE =>
    by_cases h : i < p.steps / 2
    · exact ⟨0, by simp [sampleValue, hty, ht, h], le_refl _, hA⟩
    · exact ⟨p.amplitude, by simp [sampleValue, hty, ht, h], hA, le_refl _⟩
  | WAVE_TRIANGULAR =>
    have he : p.steps % 2 = 0 := by
      rcases hk with h | h
      · exact absurd hty h
      · exact h
    have hhalf : (0 : Int) < p.steps / 2 := by omega
    have hhq : (0 : ℚ) < ((p.steps / 2 : Int) : ℚ) := by exact_mod_cast hhalf
    by_cases h : i < p.steps / 2
    · have hle : (i : ℚ) ≤ ((p.steps / 2 : Int) : ℚ) := by exact_mod_cast (le_of_lt h)
      refine ⟨(i : ℚ) / ((p.steps / 2 : Int) : ℚ) * p.amplitude,
        by simp [sampleValue, hty, ht, h, fdiv, ne_of_gt hhq], ?_, ?_⟩
      · exact mul_nonneg (div_nonneg hiq (le_of_lt hhq)) hA
      · have : (i : ℚ) / ((p.steps / 2 : Int) : ℚ) ≤ 1 := (div_le_one hhq).mpr hle
        nlinarith
    · have h1 : (0 : Int) ≤ p.steps - i := by omega
      have h2 : p.steps - i ≤ p.steps / 2 := by omega
      have h1q : (0 : ℚ) ≤ ((p.steps - i : Int) : ℚ) := by exact_mod_cast h1
      have h2q : ((p.steps - i : Int) : ℚ) ≤ ((p.steps / 2 : Int) : ℚ) := by exact_mod_cast h2
      refine ⟨((p.steps - i : Int) : ℚ) / ((p.steps / 2 : Int) : ℚ) * p.amplitude,
        by simp [sampleValue, hty, ht, h, fdiv, ne_of_gt hhq], ?_, ?_⟩
      · exact mul_nonneg (div_nonneg h1q (le_of_lt hhq)) hA
      · have : ((p.steps - i : Int) : ℚ) / ((p.steps / 2 : Int) : ℚ) ≤ 1 :=
          (div_le_one hhq).mpr h2q
        nlinarith
  | WAVE_SAWTOOTH =>
    refine ⟨(i : ℚ) / p.steps * p.amplitude, by simp [sampleValue, hty, fdiv, hq], ?_, ?_⟩
    · exact mul_nonneg (div_nonneg hiq (le_of_lt hqpos)) hA
    · have : (i : ℚ) / p.steps ≤ 1 := (div_le_one hqpos).mpr (le_of_lt hltq)
      nlinarith
  | WAVE_ARBITRARY =>
    exact ⟨(sin (2 * PI * i / p.steps) + 1) / 2 * p.amplitude,
      by simp only [sampleValue, hty, fdiv, hq, if_false, Option.map_some'], sine _⟩

/-! ## Frequency decrease -/

theorem decreaseFrequency_pos {f : ℚ} (h : 0 < f) : 0 < decreaseFrequency f := by
  unfold decreaseFrequency
  split_ifs with h1
  · linarith
  · exact h

theorem handleArrow_down (p : WaveParams) :
    handleArrow KEY_DOWN p = { p with frequency := decreaseFrequency p.frequency } := by
  simp [handleArrow, KEY_DOWN, KEY_UP]

/-! ## Amplitude adjustments -/

theorem increaseAmplitude_eq_min {a : ℚ} (h : a ≤ 1) :
    increaseAmplitude a = min (a + 1 / 20) 1 := by
  unfold increaseAmplitude
  split_ifs with h1 h2
  · rw [min_eq_right (le_of_lt h2)]
  · rw [min_eq_left (not_lt.mp h2)]
  · have : a = 1 := le_antisymm h (not_lt.mp h1)
    subst this
    norm_num

theorem decreaseAmplitude_eq_max (a : ℚ) :
    decreaseAmplitude a = max (a - 1 / 20) 0 := by
  unfold decreaseAmplitude
  split_ifs with h1
  · rw [max_eq_left (by linarith)]
  · rw [max_eq_right (by linarith)]

theorem increaseAmplitude_mem {a : ℚ} (h0 : 0 ≤ a) (h1 : a ≤ 1) :
    0 ≤ increaseAmplitude a ∧ increaseAmplitude a ≤ 1 := by
  rw [increaseAmplitude_eq_min h1]
  exact ⟨le_min (by linarith) (by norm_num), min_le_right _ _⟩

theorem decreaseAmplitude_mem {a : ℚ} (h1 : a ≤ 1) :
    0 ≤ decreaseAmplitude a ∧ decreaseAmplitude a ≤ 1 := by
  rw [decreaseAmplitude_eq_max]
  exact ⟨le_max_right _ _, max_le (by linarith) (by norm_num)⟩

theorem handleArrow_right (p : WaveParams) :
    handleArrow KEY_RIGHT p = { p with amplitude := increaseAmplitude p.amplitude } := by
  simp [handleArrow, KEY_DOWN, KEY_UP, KEY_RIGHT]

theorem handleArrow_left (p : WaveParams) :
    handleArrow KEY_LEFT p = { p with amplitude := decreaseAmplitude p.amplitude } := by
  simp [handleArrow, KEY_DOWN, KEY_UP, KEY_RIGHT, KEY_LEFT]

theorem iterate_right_amplitude_mem (p : WaveParams) (h0 : 0 ≤ p.amplitude)
    (h1 : p.amplitude ≤ 1) (n : Nat) :
    0 ≤ ((handleArrow KEY_RIGHT)^[n] p).amplitude ∧
      ((handleArrow KEY_RIGHT)^[n] p).amplitude ≤ 1 := by
  induction n generalizing p with
  | zero => exact ⟨h0, h1⟩
  | succ k ih =>
    rw [Function.iterate_succ_apply]
    apply ih
    · rw [handleArrow_right]; exact (increaseAmplitude_mem h0 h1).1
    · rw [handleArrow_right]; exact (increaseAmplitude_mem h0 h1).2

theorem iterate_left_amplitude_mem (p : WaveParams) (h0 : 0 ≤ p.amplitude)
    (h1 : p.amplitude ≤ 1) (n : Nat) :
    0 ≤ ((handleArrow KEY_LEFT)^[n] p).amplitude ∧
      ((handleArrow KEY_LEFT)^[n] p).amplitude ≤ 1 := by
  induction n generalizing p with
  | zero => exact ⟨h0, h1⟩
  | succ k ih =>
    rw [Function.iterate_succ_apply]
    apply ih
    · rw [handleArrow_left]; exact (decreaseAmplitude_mem h1).1
    · rw [handleArrow_left]; exact (decreaseAmplitude_mem h1).2

/-- C3: for an amplitude `a` in `[0, 1]` the Right arrow stores exactly
`min (a + 0.05) 1.0` and the Left arrow exactly `max (a - 0.05) 0.0`, touching
no other field; the stored value is again in `[0, 1]`, and so is every value
reached by repeating either arrow any number of times. -/
theorem amplitude_arrows_clamp (p : WaveParams) (h0 : 0 ≤ p.amplitude)
    (h1 : p.amplitude ≤ 1) :
    handleArrow KEY_RIGHT p = { p with amplitude := min (p.amplitude + 1 / 20) 1 } ∧
    handleArrow KEY_LEFT p = { p with amplitude := max (p.amplitude - 1 / 20) 0 } ∧
    (0 ≤ (handleArrow KEY_RIGHT p).amplitude ∧ (handleArrow KEY_RIGHT p).amplitude ≤ 1) ∧
    (0 ≤ (handleArrow KEY_LEFT p).amplitude ∧ (handleArrow KEY_LEFT p).amplitude ≤ 1) ∧
    (∀ n : Nat, 0 ≤ ((handleArrow KEY_RIGHT)^[n] p).amplitude ∧
      ((handleArrow KEY_RIGHT)^[n] p).amplitude ≤ 1) ∧
    (∀ n : Nat, 0 ≤ ((handleArrow KEY_LEFT)^[n] p).amplitude ∧
      ((handleArrow KEY_LEFT)^[n] p).amplitude ≤ 1) := by
  refine ⟨?_, ?_, ?_, ?_, iterate_right_amplitude_mem p h0 h1,
    iterate_left_amplitude_mem p h0 h1⟩
  · rw [handleArrow_right, increaseAmplitude_eq_min h1]
  · rw [handleArrow_left, decreaseAmplitude_eq_max]
  · rw [handleArrow_right]; exact increaseAmplitude_mem h0 h1
  · rw [handleArrow_left]; exact decreaseAmplitude_mem h1

theorem amplitude_arrows_clamp_witness :
    (∀ n : Nat, 0 ≤ ((handleArrow KEY_RIGHT)^[n] ⟨.WAVE_SINE, 1, 49 / 50, 100⟩).amplitude ∧
      ((handleArrow KEY_RIGHT)^[n] ⟨.WAVE_SINE, 1, 49 / 50, 100⟩).amplitude ≤ 1) ∧
    handleArrow KEY_RIGHT ⟨.WAVE_SINE, 1, 49 / 50, 100⟩ =
      ⟨.WAVE_SINE, 1, min (49 / 50 + 1 / 20) 1, 100⟩ :=
  ⟨(amplitude_arrows_clamp ⟨.WAVE_SINE, 1, 49 / 50, 100⟩ (by norm_num) (by norm_num)).2.2.2.2.1,
   (amplitude_arrows_clamp ⟨.WAVE_SINE, 1, 49 / 50, 100⟩ (by norm_num) (by norm_num)).1⟩

/-! ## Triangular waveform -/

theorem sampleValue_triangular_zero (sin : ℚ → ℚ) (p : WaveParams)
    (hT : p.type = .WAVE_TRIANGULAR) (hs : 2 ≤ p.steps) : sampleValue sin p 0 = some 0 := by
  have hh : (0 : Int) < p.steps.tdiv 2 := by
    rw [tdiv_two_eq_of_nonneg (by omega)]; omega
  have hq : ((p.steps.tdiv 2 : Int) : ℚ) ≠ 0 := by
    exact_mod_cast (ne_of_gt hh)
  simp [sampleValue, hT, hh, fdiv, hq]

theorem sampleValue_triangular_mid (sin : ℚ → ℚ) (p : WaveParams)
    (hT : p.type = .WAVE_TRIANGULAR) (hs : 2 ≤ p.steps) (he : p.steps % 2 = 0) :
    sampleValue sin p (p.steps / 2) = some p.amplitude := by
  have ht : p.steps.tdiv 2 = p.steps / 2 := tdiv_two_eq_of_nonneg (by omega)
  have hsub : p.steps - p.steps / 2 = p.steps / 2 := by omega
  have hq : ((p.steps / 2 : Int) : ℚ) ≠ 0 := by
    have : p.steps / 2 ≠ 0 := by omega
    exact_mod_cast this
  simp only [sampleValue, hT, ht, lt_irrefl, if_false, hsub, fdiv, hq, Option.map_some',
    div_self hq, one_mul]

/-- C4 (as stated, refuted): with steps = 3 and amplitude 1.0 the sample at the
midpoint index `3 / 2 = 1` is `2.0`, not the amplitude; with steps = 1 the
sample at index 0 is the result of a division by the zero half-length, not 0. -/
theorem triangular_midpoint_not_peak :
    sampleValue (fun _ => 0) ⟨.WAVE_TRIANGULAR, 1, 1, 3⟩ ((3 : Int).tdiv 2) = some 2 ∧
    (some (2 : ℚ) ≠ some (⟨.WAVE_TRIANGULAR, 1, 1, 3⟩ : WaveParams).amplitude) ∧
    sampleValue (fun _ => 0) ⟨.WAVE_TRIANGULAR, 1, 1, 1⟩ 0 = none ∧
    ((none : Option ℚ) ≠ some 0) := by
  refine ⟨?_, ?_, ?_, Option.noConfusion⟩ <;> norm_num [sampleValue, fdiv, Int.tdiv]

/-- C4 (amended): for every steps `>= 2` the Triangular sample at `i = 0` is 0,
and for every even steps `>= 2` the Triangular sample at the midpoint index
`steps / 2` is the amplitude. -/
theorem triangular_start_and_even_peak (sin : ℚ → ℚ) (p : WaveParams)
    (hT : p.type = .WAVE_TRIANGULAR) (hs : 2 ≤ p.steps) :
    sampleValue sin p 0 = some 0 ∧
    (p.steps % 2 = 0 → sampleValue sin p (p.steps / 2) = some p.amplitude) :=
  ⟨sampleValue_triangular_zero sin p hT hs, sampleValue_triangular_mid sin p hT hs⟩

theorem triangular_start_and_even_peak_witness :
    sampleValue (fun _ => 0) ⟨.WAVE_TRIANGULAR, 1, 3 / 4, 100⟩ 0 = some 0 ∧
    sampleValue (fun _ => 0) ⟨.WAVE_TRIANGULAR, 1, 3 / 4, 100⟩ (100 / 2) = some (3 / 4) :=
  ⟨(triangular_start_and_even_peak (fun _ => 0) ⟨.WAVE_TRIANGULAR, 1, 3 / 4, 100⟩ rfl
      (by norm_num)).1,
   (triangular_start_and_even_peak (fun _ => 0) ⟨.WAVE_TRIANGULAR, 1, 3 / 4, 100⟩ rfl
      (by norm_num)).2 (by norm_num)⟩

/-- C5: with steps = 1 the half-length `steps / 2` is 0 and the Triangular
branch taken at `i = 0` divides `steps - i = 1` by it with no guard: the
sample has no finite value and the conversion to `unsigned int` is not
defined, whatever the amplitude. The Square branch does not divide and
returns the amplitude. -/
theorem triangular_single_step_divides_by_zero (sin : ℚ → ℚ) (f A : ℚ) :
    (1 : Int).tdiv 2 = 0 ∧
    sampleValue sin ⟨.WAVE_TRIANGULAR, f, A, 1⟩ 0 = none ∧
    outputSample sin ⟨.WAVE_TRIANGULAR, f, A, 1⟩ 0 = none ∧
    sampleValue sin ⟨.WAVE_SQUARE, f, A, 1⟩ 0 = some A := by
  refine ⟨?_, ?_, ?_, ?_⟩ <;> norm_num [outputSample, sampleValue, fdiv, Int.tdiv]

/-! ## Square waveform -/

/-- C7: for every steps `>= 1` and every index `0 <= i < steps` the Square
sample is exactly 0 when `i < steps / 2` and exactly the amplitude otherwise;
with steps = 100 it is 0 for `i < 50` and the amplitude for `i >= 50`. -/
theorem square_low_then_high (sin : ℚ → ℚ) (p : WaveParams)
    (hT : p.type = .WAVE_SQUARE) (hs : 1 ≤ p.steps) (i : Int) (_hi : 0 ≤ i)
    (_hlt : i < p.steps) :
    (i < p.steps / 2 → sampleValue sin p i = some 0) ∧
    (p.steps / 2 ≤ i → sampleValue sin p i = some p.amplitude) ∧
    (p.steps = 100 → i < 50 → sampleValue sin p i = some 0) ∧
    (p.steps = 100 → 50 ≤ i → sampleValue sin p i = some p.amplitude) := by
  have ht : p.steps.tdiv 2 = p.steps / 2 := tdiv_two_eq_of_nonneg (by omega)
  have low : i < p.steps / 2 → sampleValue sin p i = some 0 := fun h => by
    simp [sampleValue, hT, ht, h]
  have high : p.steps / 2 ≤ i → sampleValue sin p i = some p.amplitude := fun h => by
    simp [sampleValue, hT, ht, not_lt.mpr h]
  exact ⟨low, high, fun h100 h => low (by omega), fun h100 h => high (by omega)⟩

theorem square_low_then_high_witness :
    sampleValue (fun _ => 0) ⟨.WAVE_SQUARE, 1, 3 / 4, 100⟩ 49 = some 0 ∧
    sampleValue (fun _ => 0) ⟨.WAVE_SQUARE, 1, 3 / 4, 100⟩ 50 = some (3 / 4) :=
  ⟨(square_low_then_high (fun _ => 0) ⟨.WAVE_SQUARE, 1, 3 / 4, 100⟩ rfl (by norm_num) 49
      (by norm_num) (by norm_num)).2.2.1 rfl (by norm_num),
   (square_low_then_high (fun _ => 0) ⟨.WAVE_SQUARE, 1, 3 / 4, 100⟩ rfl (by norm_num) 50
      (by norm_num) (by norm_num)).2.2.2 rfl (by norm_num)⟩

/-! ## Quantisation -/

theorem truncate_of_nonneg {x : ℚ} (h : 0 ≤ x) : truncate x = ⌊x⌋ := by
  simp [truncate, h]

theorem truncate_eq_zero {x : ℚ} (h1 : -1 < x) (h2 : x < 1) : truncate x = 0 := by
  unfold truncate
  split_ifs with h
  · rw [Int.floor_eq_iff]; constructor <;> norm_num <;> linarith
  · rw [Int.ceil_eq_iff]; constructor <;> norm_num <;> linarith

theorem toUnsigned_of_floor {x : ℚ} (h0 : 0 ≤ x) (h1 : x < 4294967296) :
    toUnsigned x = some ⌊x⌋.toNat := by
  have hf0 : 0 ≤ ⌊x⌋ := Int.floor_nonneg.mpr h0
  have hf1 : ⌊x⌋ < 4294967296 := Int.floor_lt.mpr (by exact_mod_cast h1)
  simp [toUnsigned, truncate_of_nonneg h0, hf0, hf1]

theorem quantize_of_floor_eq {v : ℚ} {n : Nat} (h0 : (n : ℚ) ≤ v * 65535)
    (h1 : v * 65535 < n + 1) (hn : n < 4294967296) : quantize v = some n := by
  have hx0 : (0 : ℚ) ≤ v * 65535 := le_trans (Nat.cast_nonneg n) h0
  have hfl : ⌊v * 65535⌋ = (n : Int) := by
    rw [Int.floor_eq_iff]; push_cast; exact ⟨h0, h1⟩
  have hx1 : v * 65535 < 4294967296 := by
    have : (n : ℚ) + 1 ≤ 4294967296 := by exact_mod_cast hn
    linarith
  rw [quantize, MAX_VALUE, toUnsigned_of_floor hx0 hx1, hfl, Int.toNat_ofNat]

theorem quantize_eq_zero {v : ℚ} (h1 : -1 < v * 65535) (h2 : v * 65535 < 1) :
    quantize v = some 0 := by
  simp [quantize, MAX_VALUE, toUnsigned, truncate_eq_zero h1 h2]

/-! ## Twenty-five amplitude increases -/

theorem increaseAmplitudeFl_invariant (rnd : ℚ → ℚ)
    (hrnd : ∀ x : ℚ, |rnd x - x| ≤ |x| / 2 ^ 50) (n : Nat) :
    (increaseAmplitudeFl rnd)^[n] 0 ≤ 1 ∧
      ((increaseAmplitudeFl rnd)^[n] 0 = 1 ∨
        (49 / 1000 : ℚ) * n ≤ (increaseAmplitudeFl rnd)^[n] 0) := by
  induction n with
  | zero => simp
  | succ k ih =>
    rw [Function.iterate_succ_apply']
    obtain ⟨hle, hcase⟩ := ih
    generalize (increaseAmplitudeFl rnd)^[k] 0 = a at hle hcase
    unfold increaseAmplitudeFl
    rcases hcase with h1 | hlow
    · subst h1; simp
    · by_cases ha : a < 1
      · rw [if_pos ha]
        by_cases hs : rnd (a + 1 / 20) > 1
        · rw [if_pos hs]; simp
        · rw [if_neg hs]
          refine ⟨not_lt.mp hs, Or.inr ?_⟩
          have hk : (0 : ℚ) ≤ (49 / 1000 : ℚ) * k := by positivity
          have hpos : (0 : ℚ) ≤ a + 1 / 20 := by linarith
          have hr := (abs_le.mp (hrnd (a + 1 / 20))).1
          rw [abs_of_nonneg hpos] at hr
          have hsmall : (a + 1 / 20) / 2 ^ 50 ≤ 1 / 1000 := by
            rw [div_le_iff₀ (by positivity)]
            have : (2 : ℚ) ^ 50 ≥ 2000 := by norm_num
            nlinarith
          push_cast
          linarith
      · rw [if_neg ha]
        exact ⟨hle, Or.inl (le_antisymm hle (not_lt.mp ha))⟩

theorem increaseAmplitudeFl_reaches_one (rnd : ℚ → ℚ)
    (hrnd : ∀ x : ℚ, |rnd x - x| ≤ |x| / 2 ^ 50) (n : Nat) (hn : 21 ≤ n) :
    (increaseAmplitudeFl rnd)^[n] 0 = 1 := by
  obtain ⟨hle, h1 | hlow⟩ := increaseAmplitudeFl_invariant rnd hrnd n
  · exact h1
  · exfalso
    have : (21 : ℚ) ≤ n := by exact_mod_cast hn
    linarith

theorem iterate_right_eq (n : Nat) (p : WaveParams) :
    (handleArrow KEY_RIGHT)^[n] p =
      { p with amplitude := increaseAmplitude^[n] p.amplitude } := by
  induction n generalizing p with
  | zero => rfl
  | succ k ih => rw [Function.iterate_succ_apply, ih, handleArrow_right]; rfl

/-- C9: starting from amplitude 0.0, twenty-five Right arrows leave the
amplitude exactly 1.0 and every other field as it was, and the amplitude never
exceeds 1.0 on the way or afterwards. The same holds when the `double`
addition is rounded, for every rounding `rnd` whose relative error is at most
`2^-50`. -/
theorem twenty_five_increases_reach_one (rnd : ℚ → ℚ)
    (hrnd : ∀ x : ℚ, |rnd x - x| ≤ |x| / 2 ^ 50) (p : WaveParams) (hp : p.amplitude = 0) :
    (handleArrow KEY_RIGHT)^[25] p = { p with amplitude := 1 } ∧
    (∀ n : Nat, ((handleArrow KEY_RIGHT)^[n] p).amplitude ≤ 1) ∧
    (∀ n : Nat, 25 ≤ n → ((handleArrow KEY_RIGHT)^[n] p).amplitude = 1) ∧
    (increaseAmplitudeFl rnd)^[25] 0 = 1 ∧
    (∀ n : Nat, (increaseAmplitudeFl rnd)^[n] 0 ≤ 1) ∧
    (∀ n : Nat, 25 ≤ n → (increaseAmplitudeFl rnd)^[n] 0 = 1) := by
  have hid : ∀ x : ℚ, |id x - x| ≤ |x| / 2 ^ 50 := fun x => by simp; positivity
  have e : increaseAmplitudeFl id = increaseAmplitude := funext increaseAmplitudeFl_id
  refine ⟨?_, fun n => ?_, fun n hn => ?_,
    increaseAmplitudeFl_reaches_one rnd hrnd 25 (by norm_num),
    fun n => (increaseAmplitudeFl_invariant rnd hrnd n).1,
    fun n hn => increaseAmplitudeFl_reaches_one rnd hrnd n (by omega)⟩
  · rw [iterate_right_eq, hp, ← e, increaseAmplitudeFl_reaches_one id hid 25 (by norm_num)]
  · rw [iterate_right_eq, hp, ← e]
    exact (increaseAmplitudeFl_invariant id hid n).1
  · rw [iterate_right_eq, hp, ← e]
    exact increaseAmplitudeFl_reaches_one id hid n (by omega)

theorem twenty_five_increases_reach_one_witness :
    (handleArrow KEY_RIGHT)^[25] ⟨.WAVE_SINE, 1, 0, 100⟩ = ⟨.WAVE_SINE, 1, 1, 100⟩ ∧
    (increaseAmplitudeFl id)^[25] 0 = 1 :=
  ⟨(twenty_five_increases_reach_one id (fun x => by simp; positivity)
      ⟨.WAVE_SINE, 1, 0, 100⟩ rfl).1,
   (twenty_five_increases_reach_one id (fun x => by simp; positivity)
      ⟨.WAVE_SINE, 1, 0, 100⟩ rfl).2.2.2.1⟩

/-! ## One cycle of a four-step sine -/

theorem PI_cast_lower : (3.141592 : ℝ) < ((PI : ℚ) : ℝ) := by
  simp only [PI]; norm_num

theorem PI_cast_upper : ((PI : ℚ) : ℝ) < 3.141593 := by
  simp only [PI]; norm_num

theorem abs_pi_sub_PI : |Real.pi - ((PI : ℚ) : ℝ)| ≤ 1 / 1000000 := by
  have h1 := Real.pi_gt_d6
  have h2 := Real.pi_lt_d6
  have h3 := PI_cast_lower
  have h4 := PI_cast_upper
  rw [abs_le]
  constructor <;> norm_num at h1 h2 h3 h4 ⊢ <;> linarith

theorem real_sin_PI_div_two :
    1 - 1 / 1000000000000 ≤ Real.sin (((PI : ℚ) : ℝ) / 2) ∧
      Real.sin (((PI : ℚ) : ℝ) / 2) ≤ 1 := by
  refine ⟨?_, Real.sin_le_one _⟩
  have e : ((PI : ℚ) : ℝ) / 2 = Real.pi / 2 - (Real.pi - ((PI : ℚ) : ℝ)) / 2 := by ring
  rw [e, Real.sin_pi_div_two_sub]
  have hc := @Real.one_sub_sq_div_two_le_cos ((Real.pi - ((PI : ℚ) : ℝ)) / 2)
  have h5 : |(Real.pi - ((PI : ℚ) : ℝ)) / 2| ≤ 1 / 1000000 := by
    have h := abs_pi_sub_PI
    rw [abs_div]; norm_num; linarith
  have hsq : ((Real.pi - ((PI : ℚ) : ℝ)) / 2) ^ 2 ≤ 1 / 1000000000000 := by
    calc ((Real.pi - ((PI : ℚ) : ℝ)) / 2) ^ 2
        = |(Real.pi - ((PI : ℚ) : ℝ)) / 2| ^ 2 := (sq_abs _).symm
      _ ≤ (1 / 1000000) ^ 2 := pow_le_pow_left₀ (abs_nonneg _) h5 2
      _ = 1 / 1000000000000 := by norm_num
  linarith

theorem real_sin_PI : |Real.sin ((PI : ℚ) : ℝ)| ≤ 1 / 1000000 := by
  rw [← Real.sin_pi_sub]
  exact le_trans Real.abs_sin_le_abs abs_pi_sub_PI

theorem real_sin_three_PI_div_two :
    -1 ≤ Real.sin (3 * ((PI : ℚ) : ℝ) / 2) ∧
      Real.sin (3 * ((PI : ℚ) : ℝ) / 2) ≤ -1 + 1 / 100000000000 := by
  refine ⟨Real.neg_one_le_sin _, ?_⟩
  have e : 3 * ((PI : ℚ) : ℝ) / 2 =
      (Real.pi / 2 - 3 * (Real.pi - ((PI : ℚ) : ℝ)) / 2) + Real.pi := by ring
  rw [e, Real.sin_add_pi, Real.sin_pi_div_two_sub]
  have hc := @Real.one_sub_sq_div_two_le_cos (3 * (Real.pi - ((PI : ℚ) : ℝ)) / 2)
  have h5 : |3 * (Real.pi - ((PI : ℚ) : ℝ)) / 2| ≤ 3 / 2000000 := by
    have h := abs_pi_sub_PI
    rw [abs_div, abs_mul]; norm_num; linarith
  have hsq : (3 * (Real.pi - ((PI : ℚ) : ℝ)) / 2) ^ 2 ≤ 1 / 100000000000 := by
    calc (3 * (Real.pi - ((PI : ℚ) : ℝ)) / 2) ^ 2
        = |3 * (Real.pi - ((PI : ℚ) : ℝ)) / 2| ^ 2 := (sq_abs _).symm
      _ ≤ (3 / 2000000) ^ 2 := pow_le_pow_left₀ (abs_nonneg _) h5 2
      _ ≤ 1 / 100000000000 := by norm_num
  linarith

/-- Rational bounds on a computed sine from bounds on the real sine. -/
theorem rat_bounds_of_close {s : ℚ} {S : ℝ} (qlo qhi : ℚ) (hlo : (qlo : ℝ) ≤ S)
    (hhi : S ≤ (qhi : ℝ)) (h : |(s : ℝ) - S| ≤ 1 / 1000000) :
    qlo - 1 / 1000000 ≤ s ∧ s ≤ qhi + 1 / 1000000 := by
  obtain ⟨h1, h2⟩ := abs_le.mp h
  constructor
  · have : ((qlo - 1 / 1000000 : ℚ) : ℝ) ≤ (s : ℝ) := by push_cast; linarith
    exact_mod_cast this
  · have : (s : ℝ) ≤ ((qhi + 1 / 1000000 : ℚ) : ℝ) := by push_cast; linarith
    exact_mod_cast this

theorem outputSample_sine_four (sin : ℚ → ℚ) (f : ℚ) (i : Int) :
    outputSample sin ⟨.WAVE_SINE, f, 1, 4⟩ i = quantize ((sin (2 * PI * i / 4) + 1) / 2) := by
  simp [outputSample, sampleValue, fdiv]

theorem sinQuarterTurns_close (i : Int) (h0 : 0 ≤ i) (h4 : i < 4) :
    |((sinQuarterTurns (2 * PI * i / 4) : ℚ) : ℝ) - Real.sin ((2 * PI * i / 4 : ℚ) : ℝ)|
      ≤ 1 / 1000000 := by
  have e1 : ((2 * PI * ((1 : Int) : ℚ) / 4 : ℚ) : ℝ) = ((PI : ℚ) : ℝ) / 2 := by
    push_cast; ring
  have e2 : ((2 * PI * ((2 : Int) : ℚ) / 4 : ℚ) : ℝ) = ((PI : ℚ) : ℝ) := by
    push_cast; ring
  have e3 : ((2 * PI * ((3 : Int) : ℚ) / 4 : ℚ) : ℝ) = 3 * ((PI : ℚ) : ℝ) / 2 := by
    push_cast; ring
  interval_cases i
  · norm_num [sinQuarterTurns, PI]
  · have hv : sinQuarterTurns (2 * PI * ((1 : Int) : ℚ) / 4) = 1 := by
      norm_num [sinQuarterTurns, PI]
    rw [hv, e1, abs_le]
    have := real_sin_PI_div_two
    constructor <;> push_cast <;> linarith [this.1, this.2]
  · have hv : sinQuarterTurns (2 * PI * ((2 : Int) : ℚ) / 4) = 0 := by
      norm_num [sinQuarterTurns, PI]
    rw [hv, e2]
    simpa using real_sin_PI
  · have hv : sinQuarterTurns (2 * PI * ((3 : Int) : ℚ) / 4) = -1 := by
      norm_num [sinQuarterTurns, PI]
    rw [hv, e3, abs_le]
    have := real_sin_three_PI_div_two
    constructor <;> push_cast <;> linarith [this.1, this.2]

theorem quantize_near_half {s : ℚ} (h1 : -(1 / 100000) ≤ s) (h2 : s ≤ 1 / 100000) :
    quantize ((s + 1) / 2) = some 32767 := by
  apply quantize_of_floor_eq
  · push_cast; linarith
  · push_cast; linarith
  · norm_num

theorem quantize_near_one {s : ℚ} (h1 : 1 - 1 / 100000 ≤ s) (h2 : s ≤ 1 + 1 / 100000) :
    quantize ((s + 1) / 2) = some 65534 ∨ quantize ((s + 1) / 2) = some 65535 := by
  by_cases hc : (65535 : ℚ) ≤ (s + 1) / 2 * 65535
  · right
    apply quantize_of_floor_eq
    · push_cast; linarith
    · push_cast; linarith
    · norm_num
  · left
    have hc2 := not_le.mp hc
    apply quantize_of_floor_eq
    · push_cast; linarith
    · push_cast; linarith
    · norm_num

theorem quantize_near_zero {s : ℚ} (h1 : -1 - 1 / 100000 ≤ s) (h2 : s ≤ -1 + 1 / 100000) :
    quantize ((s + 1) / 2) = some 0 := by
  apply quantize_eq_zero <;> linarith

/-- C8: with the snapshot `{Sine, amplitude 1.0, steps 4}` and a library
`sin` that is within `1e-6` of the real sine at the four angles
`2 * PI * i / 4`, the four outputs `(unsigned int)(((sin angle + 1) / 2) * 65535)`
of one cycle are defined and each is within 1 of the corresponding entry of
`[32768, 65535, 32768, 0]`; the first and third are the truncated 32767. -/
theorem sine_four_step_cycle (sin : ℚ → ℚ) (f : ℚ)
    (hsin : ∀ i : Int, 0 ≤ i → i < 4 →
      |((sin (2 * PI * i / 4) : ℚ) : ℝ) - Real.sin ((2 * PI * i / 4 : ℚ) : ℝ)|
        ≤ 1 / 1000000) :
    (∃ n : Nat, outputSample sin ⟨.WAVE_SINE, f, 1, 4⟩ 0 = some n ∧
      |(n : Int) - 32768| ≤ 1 ∧ n = 32767) ∧
    (∃ n : Nat, outputSample sin ⟨.WAVE_SINE, f, 1, 4⟩ 1 = some n ∧
      |(n : Int) - 65535| ≤ 1) ∧
    (∃ n : Nat, outputSample sin ⟨.WAVE_SINE, f, 1, 4⟩ 2 = some n ∧
      |(n : Int) - 32768| ≤ 1 ∧ n = 32767) ∧
    (∃ n : Nat, outputSample sin ⟨.WAVE_SINE, f, 1, 4⟩ 3 = some n ∧
      |(n : Int) - 0| ≤ 1) := by
  have e1 : ((2 * PI * ((1 : Int) : ℚ) / 4 : ℚ) : ℝ) = ((PI : ℚ) : ℝ) / 2 := by
    push_cast; ring
  have e2 : ((2 * PI * ((2 : Int) : ℚ) / 4 : ℚ) : ℝ) = ((PI : ℚ) : ℝ) := by
    push_cast; ring
  have e3 : ((2 * PI * ((3 : Int) : ℚ) / 4 : ℚ) : ℝ) = 3 * ((PI : ℚ) : ℝ) / 2 := by
    push_cast; ring
  have h0 := hsin 0 (by norm_num) (by norm_num)
  have h1 := hsin 1 (by norm_num) (by norm_num)
  have h2 := hsin 2 (by norm_num) (by norm_num)
  have h3 := hsin 3 (by norm_num) (by norm_num)
  rw [e1] at h1
  rw [e2] at h2
  rw [e3] at h3
  have z : ((2 * PI * ((0 : Int) : ℚ) / 4 : ℚ) : ℝ) = 0 := by push_cast; ring
  rw [z, Real.sin_zero] at h0
  have b0 := rat_bounds_of_close (0) (0) (by norm_num) (by norm_num) h0
  have b1 := rat_bounds_of_close (1 - 1 / 1000000000000) (1)
    (by push_cast; exact real_sin_PI_div_two.1) (by push_cast; exact real_sin_PI_div_two.2) h1
  have b2 := rat_bounds_of_close (-(1 / 1000000)) (1 / 1000000)
    (by push_cast; exact (abs_le.mp real_sin_PI).1)
    (by push_cast; exact (abs_le.mp real_sin_PI).2) h2
  have b3 := rat_bounds_of_close (-1) (-1 + 1 / 100000000000)
    (by push_cast; exact real_sin_three_PI_div_two.1)
    (by push_cast; exact real_sin_three_PI_div_two.2) h3
  refine ⟨⟨32767, ?_, by norm_num, rfl⟩, ?_, ⟨32767, ?_, by norm_num, rfl⟩, ⟨0, ?_, by norm_num⟩⟩
  · rw [outputSample_sine_four]
    exact quantize_near_half (by linarith [b0.1]) (by linarith [b0.2])
  · rw [outputSample_sine_four]
    rcases quantize_near_one (s := sin (2 * PI * ((1 : Int) : ℚ) / 4)) (by linarith [b1.1])
        (by linarith [b1.2]) with h | h
    · exact ⟨65534, h, by norm_num⟩
    · exact ⟨65535, h, by norm_num⟩
  · rw [outputSample_sine_four]
    exact quantize_near_half (by linarith [b2.1]) (by linarith [b2.2])
  · rw [outputSample_sine_four]
    exact quantize_near_zero (by linarith [b3.1]) (by linarith [b3.2])

theorem sine_four_step_cycle_witness :
    (∃ n : Nat, outputSample sinQuarterTurns ⟨.WAVE_SINE, 1, 1, 4⟩ 0 = some n ∧
      |(n : Int) - 32768| ≤ 1 ∧ n = 32767) ∧
    (∃ n : Nat, outputSample sinQuarterTurns ⟨.WAVE_SINE, 1, 1, 4⟩ 1 = some n ∧
      |(n : Int) - 65535| ≤ 1) ∧
    (∃ n : Nat, outputSample sinQuarterTurns ⟨.WAVE_SINE, 1, 1, 4⟩ 2 = some n ∧
      |(n : Int) - 32768| ≤ 1 ∧ n = 32767) ∧
    (∃ n : Nat, outputSample sinQuarterTurns ⟨.WAVE_SINE, 1, 1, 4⟩ 3 = some n ∧
      |(n : Int) - 0| ≤ 1) :=
  sine_four_step_cycle sinQuarterTurns 1 sinQuarterTurns_close

/-! ## Sine at the start of a cycle -/

/-- C11: for every steps `>= 1` and every amplitude `A` the Sine sample at
`i = 0` is `A / 2`, the library `sin` being exact at 0 (`sin 0 = 0`). -/
theorem sine_at_zero_is_half (sin : ℚ → ℚ) (hsin : sin 0 = 0) (p : WaveParams)
    (hT : p.type = .WAVE_SINE) (hs : 1 ≤ p.steps) :
    sampleValue sin p 0 = some (p.amplitude / 2) := by
  have hq : ((p.steps : Int) : ℚ) ≠ 0 := by
    have : p.steps ≠ 0 := by omega
    exact_mod_cast this
  simp only [sampleValue, hT, fdiv, hq, if_false, Option.map_some', Int.cast_zero, mul_zero,
    zero_div, hsin, zero_add]
  congr 1
  ring

theorem sine_at_zero_is_half_witness :
    sampleValue sinQuarterTurns ⟨.WAVE_SINE, 1, 3 / 4, 7⟩ 0 = some ((3 / 4 : ℚ) / 2) :=
  sine_at_zero_is_half sinQuarterTurns (by norm_num [sinQuarterTurns, PI])
    ⟨.WAVE_SINE, 1, 3 / 4, 7⟩ rfl (by norm_num)

/-! ## Loading the configuration -/

/-- C12: a file holding only `sine 2.0` gives two conversions, fewer than four,
yet `load_config` changes the frequency of the default parameters from 1.0 to
2.0, because `fscanf` stores through `&(params->frequency)` before the count is
tested. A missing file, and a record with no number in it, leave the
parameters as they were. -/
theorem load_config_partial_record_overwrites :
    (ScanResult.two "sine" 2).count < 4 ∧
    load_config (some (.two "sine" 2)) defaultParams = ⟨.WAVE_SINE, 2, 1, 100⟩ ∧
    load_config (some (.two "sine" 2)) defaultParams ≠ defaultParams ∧
    (∀ p : WaveParams, load_config none p = p) ∧
    (∀ p : WaveParams, load_config (some .zero) p = p) ∧
    (∀ (p : WaveParams) (t : String), load_config (some (.one t)) p = p) := by
  refine ⟨by decide, ?_, ?_, fun _ => rfl, fun _ => rfl, fun _ _ => rfl⟩
  · simp [load_config, defaultParams]
  · simp [load_config, defaultParams]

/-! ## Parameters at thread start -/

theorem cliOverrides_type (atof : String → ℚ) (atoi : String → Int) (argv : List String)
    (p : WaveParams) :
    (cliOverrides atof atoi argv p).type =
      if argv.length > 1 then parse_waveform (argv.getD 1 "") else p.type := by
  simp only [cliOverrides, apply_ite WaveParams.type, ite_self, ite_and]

theorem cliOverrides_frequency (atof : String → ℚ) (atoi : String → Int)
    (argv : List String) (p : WaveParams) :
    (cliOverrides atof atoi argv p).frequency =
      if argv.length > 2 ∧ atof (argv.getD 2 "") > 0 then atof (argv.getD 2 "")
      else p.frequency := by
  simp only [cliOverrides, apply_ite WaveParams.frequency, ite_self, ite_and]

theorem cliOverrides_amplitude (atof : String → ℚ) (atoi : String → Int)
    (argv : List String) (p : WaveParams) :
    (cliOverrides atof atoi argv p).amplitude =
      if argv.length > 3 ∧ atof (argv.getD 3 "") ≥ 0 ∧ atof (argv.getD 3 "") ≤ 1 then
        atof (argv.getD 3 "")
      else p.amplitude := by
  simp only [cliOverrides, apply_ite WaveParams.amplitude, ite_self, ite_and]

theorem cliOverrides_steps (atof : String → ℚ) (atoi : String → Int)
    (argv : List String) (p : WaveParams) :
    (cliOverrides atof atoi argv p).steps =
      if argv.length > 4 ∧ atoi (argv.getD 4 "") > 0 then atoi (argv.getD 4 "")
      else p.steps := by
  simp only [cliOverrides, apply_ite WaveParams.steps, ite_self, ite_and]

/-- The command-line overrides keep valid parameters valid. -/
theorem cliOverrides_valid (atof : String → ℚ) (atoi : String → Int) (argv : List String)
    (p : WaveParams) (h : p.Valid) : (cliOverrides atof atoi argv p).Valid := by
  obtain ⟨hf, ha0, ha1, hs⟩ := h
  refine ⟨?_, ?_, ?_, ?_⟩
  · rw [cliOverrides_frequency]; split_ifs with h1
    · exact h1.2
    · exact hf
  · rw [cliOverrides_amplitude]; split_ifs with h1
    · exact h1.2.1
    · exact ha0
  · rw [cliOverrides_amplitude]; split_ifs with h1
    · exact h1.2.2
    · exact ha1
  · rw [cliOverrides_steps]; split_ifs with h1
    · exact h1.2
    · exact hs

/-- Without a configuration file the parameters at thread start are valid. -/
theorem startupParams_valid_of_no_file (atof : String → ℚ) (atoi : String → Int)
    (argv : List String) : (startupParams atof atoi none argv).Valid := by
  apply cliOverrides_valid
  refine ⟨?_, ?_, ?_, ?_⟩ <;> norm_num [load_config, defaultParams]

/-- C13: with a configuration file holding `sine 0 2 0` and no command-line
argument, the parameters in force when the threads start are frequency 0,
amplitude 2 and steps 0: `load_config` stores the four values unchecked, and
the checks of `main` apply to command-line arguments only. -/
theorem startup_keeps_invalid_config (atof : String → ℚ) (atoi : String → Int) :
    startupParams atof atoi (some (.four "sine" 0 2 0)) ["wavegen"] =
      ⟨.WAVE_SINE, 0, 2, 0⟩ ∧
    ¬ (0 < (startupParams atof atoi (some (.four "sine" 0 2 0)) ["wavegen"]).frequency) ∧
    ¬ ((startupParams atof atoi (some (.four "sine" 0 2 0)) ["wavegen"]).amplitude ≤ 1) ∧
    ¬ (0 < (startupParams atof atoi (some (.four "sine" 0 2 0)) ["wavegen"]).steps) := by
  have h : startupParams atof atoi (some (.four "sine" 0 2 0)) ["wavegen"] =
      ⟨.WAVE_SINE, 0, 2, 0⟩ := by
    simp [startupParams, cliOverrides, load_config, parse_waveform]
  rw [h]
  exact ⟨rfl, by norm_num, by norm_num, by norm_num⟩

/-- C14: each command-line override is decided by its own argument alone. The
final kind is the parsed first argument when present; the final frequency is
the second argument when present and `> 0`; the final amplitude is the third
argument when present and in `[0, 1]`; the final steps is the fourth argument
when present and `> 0`; in every other case the field keeps its prior value. -/
theorem cli_overrides_independent (atof : String → ℚ) (atoi : String → Int)
    (argv : List String) (p : WaveParams) :
    (cliOverrides atof atoi argv p).type =
      (if argv.length > 1 then parse_waveform (argv.getD 1 "") else p.type) ∧
    (cliOverrides atof atoi argv p).frequency =
      (if argv.length > 2 ∧ atof (argv.getD 2 "") > 0 then atof (argv.getD 2 "")
       else p.frequency) ∧
    (cliOverrides atof atoi argv p).amplitude =
      (if argv.length > 3 ∧ atof (argv.getD 3 "") ≥ 0 ∧ atof (argv.getD 3 "") ≤ 1 then
        atof (argv.getD 3 "")
       else p.amplitude) ∧
    (cliOverrides atof atoi argv p).steps =
      (if argv.length > 4 ∧ atoi (argv.getD 4 "") > 0 then atoi (argv.getD 4 "")
       else p.steps) :=
  ⟨cliOverrides_type atof atoi argv p, cliOverrides_frequency atof atoi argv p,
   cliOverrides_amplitude atof atoi argv p, cliOverrides_steps atof atoi argv p⟩

/-! ## Waveform names -/

/-- C15: `parse_waveform` is a total function that sends `"sine"`, `"square"`,
`"triangular"`, `"sawtooth"` and `"arbitrary"` to their kinds, compares
case-sensitively, and sends every other string, the empty string and
`"Square"` among them, to Sine: a kind other than Sine is returned for exactly
one string. -/
theorem parse_waveform_table :
    parse_waveform "sine" = .WAVE_SINE ∧
    parse_waveform "square" = .WAVE_SQUARE ∧
    parse_waveform "triangular" = .WAVE_TRIANGULAR ∧
    parse_waveform "sawtooth" = .WAVE_SAWTOOTH ∧
    parse_waveform "arbitrary" = .WAVE_ARBITRARY ∧
    parse_waveform "" = .WAVE_SINE ∧
    parse_waveform "Square" = .WAVE_SINE ∧
    (∀ s : String, parse_waveform s = .WAVE_SQUARE ↔ s = "square") ∧
    (∀ s : String, parse_waveform s = .WAVE_TRIANGULAR ↔ s = "triangular") ∧
    (∀ s : String, parse_waveform s = .WAVE_SAWTOOTH ↔ s = "sawtooth") ∧
    (∀ s : String, parse_waveform s = .WAVE_ARBITRARY ↔ s = "arbitrary") ∧
    (∀ s : String, parse_waveform s = .WAVE_SINE ↔
      s ≠ "square" ∧ s ≠ "triangular" ∧ s ≠ "sawtooth" ∧ s ≠ "arbitrary") := by
  refine ⟨by decide, by decide, by decide, by decide, by decide, by decide, by decide,
    ?_, ?_, ?_, ?_, ?_⟩
  all_goals
    intro s
    unfold parse_waveform
    constructor
    · intro h
      split_ifs at h with h1 h2 h3 h4 h5 <;> first
        | exact absurd h (by decide)
        | (subst_vars; decide)
        | exact ⟨h2, h3, h4, h5⟩
    · intro h
      split_ifs <;> first
        | rfl
        | (subst_vars; exact absurd h (by decide))
        | (exfalso; simp_all)

/-- C20: for every kind `k` the name that `save_config` writes parses back to
`k`; the name has no blank and at most 31 characters, so `%31s` reads it back
whole, and a saved record that `load_config` reads with four conversions
restores the kind it was saved with. -/
theorem parse_waveform_type_str (k : WaveType) :
    parse_waveform (type_str k) = k ∧
    (type_str k).length ≤ 31 ∧
    (type_str k).toList.all (fun c => !c.isWhitespace) = true ∧
    (∀ (f a : ℚ) (n : Int) (p : WaveParams),
      (load_config (some (.four (type_str k) f a n)) p).type = k) := by
  cases k <;> exact ⟨by decide, by decide, by decide, fun _ _ _ _ => by
    simp only [load_config]; decide⟩

/-! ## Sequences of adjustments -/

theorem handleArrow_valid (arrow : Int) (p : WaveParams) (h : p.Valid) :
    (handleArrow arrow p).Valid := by
  obtain ⟨hf, ha0, ha1, hs⟩ := h
  unfold handleArrow
  split_ifs
  · exact ⟨by simp only [increaseFrequency]; linarith, ha0, ha1, hs⟩
  · exact ⟨decreaseFrequency_pos hf, ha0, ha1, hs⟩
  · exact ⟨hf, (increaseAmplitude_mem ha0 ha1).1, (increaseAmplitude_mem ha0 ha1).2, hs⟩
  · exact ⟨hf, (decreaseAmplitude_mem ha1).1, (decreaseAmplitude_mem ha1).2, hs⟩
  · exact ⟨hf, ha0, ha1, hs⟩

theorem handleArrow_type_steps (arrow : Int) (p : WaveParams) :
    (handleArrow arrow p).type = p.type ∧ (handleArrow arrow p).steps = p.steps := by
  unfold handleArrow
  split_ifs <;> exact ⟨rfl, rfl⟩

/-- C16: from parameters with frequency `> 0`, amplitude in `[0, 1]` and steps
`> 0`, every finite sequence of arrow bytes handled by `keyboard_thread` (the
four adjustments, and any other byte, which changes nothing) leads to
parameters with frequency `> 0`, amplitude in `[0, 1]` and steps `> 0`, with
the kind and the steps it started with. -/
theorem adjustments_keep_valid (p : WaveParams) (h : p.Valid) (arrows : List Int) :
    (applyArrows arrows p).Valid ∧
    (applyArrows arrows p).type = p.type ∧
    (applyArrows arrows p).steps = p.steps := by
  induction arrows generalizing p with
  | nil => exact ⟨h, rfl, rfl⟩
  | cons a rest ih =>
    have := ih (handleArrow a p) (handleArrow_valid a p h)
    simp only [applyArrows, List.foldl_cons] at this ⊢
    exact ⟨this.1, this.2.1.trans (handleArrow_type_steps a p).1,
      this.2.2.trans (handleArrow_type_steps a p).2⟩

theorem adjustments_keep_valid_witness :
    (applyArrows [KEY_DOWN, KEY_LEFT, KEY_UP, KEY_RIGHT, KEY_DOWN] defaultParams).Valid ∧
    (applyArrows [KEY_DOWN, KEY_LEFT, KEY_UP, KEY_RIGHT, KEY_DOWN] defaultParams).type =
      defaultParams.type ∧
    (applyArrows [KEY_DOWN, KEY_LEFT, KEY_UP, KEY_RIGHT, KEY_DOWN] defaultParams).steps =
      defaultParams.steps :=
  adjustments_keep_valid defaultParams
    ⟨by norm_num [defaultParams], by norm_num [defaultParams], by norm_num [defaultParams],
      by norm_num [defaultParams]⟩ _

/-! ## Stopping the generation loop -/

theorem step_flag_false (sin : ℚ → ℚ) (a : Action) (s : Sys) (h : s.run_flag = false) :
    (step sin a s).run_flag = false := by
  obtain ⟨fl, cur, mu, gpc, loc, i, kpc, out, snaps, hist⟩ := s
  simp only at h
  subst h
  cases a with
  | gen =>
    cases gpc <;> cases mu <;> simp [step, genStep]
  | kb key =>
    cases kpc <;> cases mu <;> simp [step, kbStep] <;> (rcases key with _ | _ | _) <;> rfl
  | sigint => rfl

theorem step_committed_le (sin : ℚ → ℚ) (a : Action) (s : Sys) (h : s.run_flag = false) :
    committed (step sin a s) ≤ committed s := by
  obtain ⟨fl, cur, mu, gpc, loc, i, kpc, out, snaps, hist⟩ := s
  simp only at h
  subst h
  cases a with
  | gen =>
    cases gpc <;> cases mu <;> simp [step, genStep, committed]
  | kb key =>
    cases kpc <;> cases mu <;> simp [step, kbStep, committed] <;>
      (rcases key with _ | _ | _) <;> simp
  | sigint => simp [step, committed]

theorem run_flag_false (sin : ℚ → ℚ) (sched : List Action) (s : Sys)
    (h : s.run_flag = false) :
    (run sin sched s).run_flag = false ∧ committed (run sin sched s) ≤ committed s := by
  induction sched generalizing s with
  | nil => exact ⟨h, le_refl _⟩
  | cons a rest ih =>
    have h1 := step_flag_false sin a s h
    have h2 := step_committed_le sin a s h
    obtain ⟨h3, h4⟩ := ih (step sin a s) h1
    simp only [run, List.foldl_cons] at h3 h4 ⊢
    exact ⟨h3, le_trans h4 h2⟩

theorem run_append (sin : ℚ → ℚ) (pre post : List Action) (s : Sys) :
    run sin (pre ++ post) s = run sin post (run sin pre s) := by
  simp [run, List.foldl_append]

/-! ## Consistency of the parameter copy -/

theorem agrees_of_not_inSection (pc : GenPc) (h : pc.inSection = false)
    (loc cur : WaveParams) : Agrees pc loc cur := by
  cases pc <;> simp_all [GenPc.inSection, Agrees]

theorem copyInv_init (p loc : WaveParams) : CopyInv (initSys p loc) := by
  simp [CopyInv, initSys, GenPc.inSection, KbPc.inSection, Agrees]

theorem copyInv_genStep (sin : ℚ → ℚ) (s : Sys) (h : CopyInv s) :
    CopyInv (genStep sin s) := by
  obtain ⟨fl, cur, mu, gpc, loc, i, kpc, out, snaps, hist⟩ := s
  obtain ⟨h1, h2, h3, h4, h5⟩ := h
  simp only at h1 h2 h3 h4 h5
  cases gpc with
  | whileCheck =>
    cases fl <;> exact ⟨h1, h2, by simp [genStep, GenPc.inSection], h4,
      by simp [genStep, Agrees]⟩
  | lock =>
    cases mu with
    | none =>
      refine ⟨h1, h2, by simp [genStep], ?_, by simp [genStep, Agrees]⟩
      intro hk
      exact absurd (h4 hk) (by simp)
    | some t => exact ⟨h1, h2, h3, h4, h5⟩
  | copyType =>
    exact ⟨h1, h2, fun _ => h3 rfl, h4, by simp [genStep, Agrees]⟩
  | copyFrequency =>
    exact ⟨h1, h2, fun _ => h3 rfl, h4, by simpa [genStep, Agrees] using h5⟩
  | copyAmplitude =>
    exact ⟨h1, h2, fun _ => h3 rfl, h4, by simpa [genStep, Agrees] using h5⟩
  | copySteps =>
    refine ⟨h1, h2, fun _ => h3 rfl, h4, ?_⟩
    obtain ⟨a, b, c⟩ := h5
    obtain ⟨lt, lf, la, ls⟩ := loc
    obtain ⟨ct, cf, ca, cs⟩ := cur
    simp only at a b c
    simp [genStep, Agrees, a, b, c]
  | unlock =>
    have hm : mu = some .generator := h3 rfl
    have hl : loc = cur := h5
    refine ⟨?_, h2, by simp [genStep, GenPc.inSection], ?_, by simp [genStep, Agrees]⟩
    · intro x hx
      simp only [genStep, List.mem_cons] at hx
      rcases hx with hx | hx
      · rw [hx, hl]; exact h2
      · exact h1 x hx
    · intro hk
      have := h4 hk
      rw [hm] at this
      exact absurd this (by simp)
  | forCheck =>
    simp only [genStep]
    split_ifs <;> exact ⟨h1, h2, by simp [GenPc.inSection], h4, by simp [Agrees]⟩
  | body =>
    exact ⟨h1, h2, by simp [genStep, GenPc.inSection], h4, by simp [genStep, Agrees]⟩
  | exited => exact ⟨h1, h2, h3, h4, h5⟩

theorem copyInv_kbStep (key : Option KeyEvent) (s : Sys) (h : CopyInv s) :
    CopyInv (kbStep key s) := by
  obtain ⟨fl, cur, mu, gpc, loc, i, kpc, out, snaps, hist⟩ := s
  obtain ⟨h1, h2, h3, h4, h5⟩ := h
  simp only at h1 h2 h3 h4 h5
  cases kpc with
  | whileCheck =>
    cases fl <;> exact ⟨h1, h2, h3, by simp [kbStep, KbPc.inSection], h5⟩
  | poll =>
    rcases key with _ | _ | _ <;> exact ⟨h1, h2, h3, by simp [kbStep, KbPc.inSection], h5⟩
  | lock arrow =>
    cases mu with
    | none =>
      refine ⟨h1, h2, ?_, by simp [kbStep], h5⟩
      intro hg
      exact absurd (h3 hg) (by simp)
    | some t => exact ⟨h1, h2, h3, h4, h5⟩
  | update arrow =>
    have hm : mu = some .keyboard := h4 rfl
    have hg : gpc.inSection = false := by
      cases hs : gpc.inSection
      · rfl
      · have := h3 hs
        rw [hm] at this
        exact absurd this (by simp)
    refine ⟨?_, by simp [kbStep], h3, fun _ => hm, agrees_of_not_inSection gpc hg _ _⟩
    intro x hx
    exact List.mem_cons_of_mem _ (h1 x hx)
  | unlock =>
    have hm : mu = some .keyboard := h4 rfl
    refine ⟨h1, h2, ?_, by simp [kbStep, KbPc.inSection], h5⟩
    intro hg
    have := h3 hg
    rw [hm] at this
    exact absurd this (by simp)
  | exited => exact ⟨h1, h2, h3, h4, h5⟩

theorem copyInv_step (sin : ℚ → ℚ) (a : Action) (s : Sys) (h : CopyInv s) :
    CopyInv (step sin a s) := by
  cases a with
  | gen => exact copyInv_genStep sin s h
  | kb key => exact copyInv_kbStep key s h
  | sigint => exact h

theorem copyInv_run (sin : ℚ → ℚ) (sched : List Action) (s : Sys) (h : CopyInv s) :
    CopyInv (run sin sched s) := by
  induction sched generalizing s with
  | nil => exact h
  | cons a rest ih => exact ih (step sin a s) (copyInv_step sin a s h)

/-! ## At most one sample after the stop -/

theorem step_output_extends (sin : ℚ → ℚ) (a : Action) (s : Sys) :
    ∃ rest : List (Option Nat), (step sin a s).output = s.output ++ rest := by
  obtain ⟨fl, cur, mu, gpc, loc, i, kpc, out, snaps, hist⟩ := s
  cases a with
  | gen =>
    cases gpc
    case body => exact ⟨[outputSample sin loc i], rfl⟩
    case whileCheck => cases fl <;> exact ⟨[], by simp [step, genStep]⟩
    case lock => cases mu <;> exact ⟨[], by simp [step, genStep]⟩
    case forCheck =>
      refine ⟨[], ?_⟩
      simp only [step, genStep]
      split_ifs <;> simp
    all_goals exact ⟨[], by simp [step, genStep]⟩
  | kb key =>
    cases kpc
    case whileCheck => cases fl <;> exact ⟨[], by simp [step, kbStep]⟩
    case poll => rcases key with _ | _ | _ <;> exact ⟨[], by simp [step, kbStep]⟩
    case lock arrow => cases mu <;> exact ⟨[], by simp [step, kbStep]⟩
    all_goals exact ⟨[], by simp [step, kbStep]⟩
  | sigint => exact ⟨[], by simp [step]⟩

theorem run_output_extends (sin : ℚ → ℚ) (sched : List Action) (s : Sys) :
    ∃ rest : List (Option Nat), (run sin sched s).output = s.output ++ rest := by
  induction sched generalizing s with
  | nil => exact ⟨[], by simp [run]⟩
  | cons a tail ih =>
    obtain ⟨r1, h1⟩ := step_output_extends sin a s
    obtain ⟨r2, h2⟩ := ih (step sin a s)
    refine ⟨r1 ++ r2, ?_⟩
    simp only [run, List.foldl_cons] at h2 ⊢
    rw [h2, h1, List.append_assoc]

theorem run_after_stop (sin : ℚ → ℚ) (sched : List Action) (s : Sys)
    (h : s.run_flag = false) :
    ∃ rest : List (Option Nat), (run sin sched s).output = s.output ++ rest ∧
      rest.length ≤ (if s.genPc = .body then 1 else 0) := by
  obtain ⟨rest, hr⟩ := run_output_extends sin sched s
  refine ⟨rest, hr, ?_⟩
  have hc := (run_flag_false sin sched s h).2
  have hlen : (run sin sched s).output.length ≤ committed s :=
    le_trans (Nat.le_add_right _ _) hc
  rw [hr, List.length_append] at hlen
  unfold committed at hlen
  omega

/-- C17: in the machine that checks `run_flag` before each cycle and before
each sample, once the flag is cleared (by a quit key or by the interrupt
handler) every schedule prints at most one further sample, and none unless the
loop body had already been entered; the flag stays cleared. A sample check
that sees the flag cleared leaves the loop without printing, a cycle check
that sees it cleared exits the thread, and the body is entered only from a
sample check that saw the flag set. -/
theorem stop_allows_one_more_sample (sin : ℚ → ℚ) (s : Sys) (h : s.run_flag = false)
    (sched : List Action) :
    (run sin sched s).run_flag = false ∧
    (∃ rest : List (Option Nat), (run sin sched s).output = s.output ++ rest ∧
      rest.length ≤ 1 ∧ (s.genPc ≠ .body → rest = [])) ∧
    (s.genPc = .forCheck → (step sin .gen s).genPc = .whileCheck ∧
      (step sin .gen s).output = s.output) ∧
    (s.genPc = .whileCheck → (step sin .gen s).genPc = .exited ∧
      (step sin .gen s).output = s.output) ∧
    (∀ a : Action, (step sin a s).genPc = .body → s.genPc = .body) := by
  refine ⟨(run_flag_false sin sched s h).1, ?_, ?_, ?_, ?_⟩
  · obtain ⟨rest, hr, hl⟩ := run_after_stop sin sched s h
    refine ⟨rest, hr, ?_, ?_⟩
    · split_ifs at hl <;> omega
    · intro hb
      rw [if_neg hb] at hl
      exact List.length_eq_zero.mp (Nat.le_zero.mp hl)
  · intro hpc
    simp [step, genStep, hpc, h]
  · intro hpc
    simp [step, genStep, hpc, h]
  · intro a ha
    obtain ⟨fl, cur, mu, gpc, loc, i, kpc, out, snaps, hist⟩ := s
    simp only at h
    subst h
    cases a with
    | gen =>
      cases gpc <;> cases mu <;> simp_all [step, genStep]
    | kb key =>
      cases kpc <;> cases mu <;> simp_all [step, kbStep] <;>
        (rcases key with _ | _ | _) <;> simp_all
    | sigint => simpa [step] using ha

theorem stop_allows_one_more_sample_witness :
    (run sinQuarterTurns [.gen, .kb none, .gen, .gen]
      (run sinQuarterTurns [.gen, .gen, .gen, .gen, .gen, .gen, .gen, .gen, .sigint]
        (initSys defaultParams defaultParams))).run_flag = false ∧
    (∃ rest : List (Option Nat),
      (run sinQuarterTurns [.gen, .kb none, .gen, .gen]
        (run sinQuarterTurns [.gen, .gen, .gen, .gen, .gen, .gen, .gen, .gen, .sigint]
          (initSys defaultParams defaultParams))).output =
        (run sinQuarterTurns [.gen, .gen, .gen, .gen, .gen, .gen, .gen, .gen, .sigint]
          (initSys defaultParams defaultParams)).output ++ rest ∧
      rest.length ≤ 1) :=
  ⟨(stop_allows_one_more_sample sinQuarterTurns _ rfl _).1,
   (stop_allows_one_more_sample sinQuarterTurns _ rfl _).2.1.imp
     fun _ hr => ⟨hr.1, hr.2.1⟩⟩

/-- The bound of one sample is reached: the interrupt arrives after the sample
check of a default four-field snapshot, the body prints its sample, and the
thread then exits. -/
theorem stop_after_check_prints_one :
    (run sinQuarterTurns [.gen, .gen, .gen, .gen, .gen, .gen, .gen, .gen, .sigint]
      (initSys defaultParams defaultParams)).output.length = 0 ∧
    (run sinQuarterTurns [.gen, .gen, .gen]
      (run sinQuarterTurns [.gen, .gen, .gen, .gen, .gen, .gen, .gen, .gen, .sigint]
        (initSys defaultParams defaultParams))).output.length = 1 ∧
    (run sinQuarterTurns [.gen, .gen, .gen]
      (run sinQuarterTurns [.gen, .gen, .gen, .gen, .gen, .gen, .gen, .gen, .sigint]
        (initSys defaultParams defaultParams))).genPc = .exited := by
  refine ⟨?_, ?_, ?_⟩ <;>
    simp [run, step, genStep, initSys, defaultParams]

/-! ## No torn snapshot -/

/-- C19: for every schedule of the two threads and the interrupt handler,
started from the state in which `main` creates the threads, every completed
copy `params = current_params` is a value that `current_params` held at some
moment, and at the moment the generation thread releases the mutex its copy
equals `current_params`; while it is copying, the keyboard thread is not
between its own lock and unlock. -/
theorem snapshots_are_past_states (sin : ℚ → ℚ) (p loc : WaveParams)
    (sched : List Action) :
    (∀ x ∈ (run sin sched (initSys p loc)).snapshots,
      x ∈ (run sin sched (initSys p loc)).history) ∧
    ((run sin sched (initSys p loc)).genPc = .unlock →
      (run sin sched (initSys p loc)).params =
        (run sin sched (initSys p loc)).current_params) ∧
    ((run sin sched (initSys p loc)).genPc.inSection = true →
      (run sin sched (initSys p loc)).kbPc.inSection = false) := by
  have h := copyInv_run sin sched (initSys p loc) (copyInv_init p loc)
  obtain ⟨h1, _, h3, h4, h5⟩ := h
  refine ⟨h1, ?_, ?_⟩
  · intro hpc
    rw [hpc] at h5
    exact h5
  · intro hg
    cases hk : (run sin sched (initSys p loc)).kbPc.inSection
    · rfl
    · have a := h3 hg
      have b := h4 hk
      rw [a] at b
      exact absurd b (by simp)

theorem snapshots_are_past_states_witness :
    (run sinQuarterTurns
      [.kb none, .kb (some (.arrow KEY_DOWN)), .gen, .gen, .kb none, .gen, .kb none, .gen, .gen,
        .kb none, .gen]
      (initSys defaultParams ⟨.WAVE_SQUARE, 7, 0, 3⟩)).genPc = .unlock ∧
    (run sinQuarterTurns
      [.kb none, .kb (some (.arrow KEY_DOWN)), .gen, .gen, .kb none, .gen, .kb none, .gen, .gen,
        .kb none, .gen]
      (initSys defaultParams ⟨.WAVE_SQUARE, 7, 0, 3⟩)).params =
      (run sinQuarterTurns
        [.kb none, .kb (some (.arrow KEY_DOWN)), .gen, .gen, .kb none, .gen, .kb none, .gen, .gen,
          .kb none, .gen]
        (initSys defaultParams ⟨.WAVE_SQUARE, 7, 0, 3⟩)).current_params :=
  ⟨by simp [run, step, genStep, kbStep, initSys],
   (snapshots_are_past_states sinQuarterTurns defaultParams ⟨.WAVE_SQUARE, 7, 0, 3⟩ _).2.1
     (by simp [run, step, genStep, kbStep, initSys])⟩

/-- A run in which the Down arrow is handled before the copy: the one snapshot
taken is the adjusted value, 0.9 Hz, which is the head of the history. -/
theorem snapshot_after_adjustment :
    (run sinQuarterTurns
      [.kb none, .kb (some (.arrow KEY_DOWN)), .kb none, .kb none, .kb none,
        .gen, .gen, .gen, .gen, .gen, .gen, .gen]
      (initSys defaultParams ⟨.WAVE_SQUARE, 7, 0, 3⟩)).snapshots =
      [⟨.WAVE_SINE, 9 / 10, 1, 100⟩] ∧
    (run sinQuarterTurns
      [.kb none, .kb (some (.arrow KEY_DOWN)), .kb none, .kb none, .kb none,
        .gen, .gen, .gen, .gen, .gen, .gen, .gen]
      (initSys defaultParams ⟨.WAVE_SQUARE, 7, 0, 3⟩)).history =
      [⟨.WAVE_SINE, 9 / 10, 1, 100⟩, defaultParams] := by
  constructor <;>
    norm_num [run, step, genStep, kbStep, initSys, defaultParams, handleArrow_down,
      decreaseFrequency]

/-! ## Rounding to the nearest integer -/

theorem roundHalfEven_sub_le (q : ℚ) : |(roundHalfEven q : ℚ) - q| ≤ 1 / 2 := by
  have h1 := Int.floor_le q
  have h2 := Int.lt_floor_add_one q
  unfold roundHalfEven
  rw [abs_le]
  split_ifs with a b c
  · constructor <;> linarith
  · push_cast; constructor <;> linarith
  · have : q - ⌊q⌋ = 1 / 2 := le_antisymm (not_lt.mp b) (not_lt.mp a)
    constructor <;> linarith
  · have : q - ⌊q⌋ = 1 / 2 := le_antisymm (not_lt.mp b) (not_lt.mp a)
    push_cast; constructor <;> linarith

theorem roundHalfEven_intCast (n : Int) : roundHalfEven (n : ℚ) = n := by
  simp [roundHalfEven]

theorem roundHalfEven_mono {q r : ℚ} (h : q ≤ r) : roundHalfEven q ≤ roundHalfEven r := by
  by_contra hc
  have hlt : roundHalfEven r + 1 ≤ roundHalfEven q := by omega
  have hq := (abs_le.mp (roundHalfEven_sub_le q)).2
  have hr := (abs_le.mp (roundHalfEven_sub_le r)).1
  have hcast : ((roundHalfEven r : ℚ)) + 1 ≤ (roundHalfEven q : ℚ) := by exact_mod_cast hlt
  have hqr : q = r := by linarith
  rw [hqr] at hc
  exact hc (le_refl _)

theorem roundHalfEven_eq_of_abs_lt {q : ℚ} {m : Int} (h : |q - m| < 1 / 2) :
    roundHalfEven q = m := by
  have hq := abs_le.mp (roundHalfEven_sub_le q)
  have hm := abs_lt.mp h
  have h1 : ((roundHalfEven q : ℚ)) - m < 1 := by linarith [hq.2]
  have h2 : (-1 : ℚ) < (roundHalfEven q : ℚ) - m := by linarith [hq.1]
  have h3 : roundHalfEven q - m < 1 := by exact_mod_cast h1
  have h4 : -1 < roundHalfEven q - m := by exact_mod_cast h2
  omega

theorem le_roundHalfEven {q : ℚ} {n : Int} (h : (n : ℚ) ≤ q) : n ≤ roundHalfEven q := by
  have := roundHalfEven_mono h
  rwa [roundHalfEven_intCast] at this

theorem roundHalfEven_le {q : ℚ} {n : Int} (h : q ≤ (n : ℚ)) : roundHalfEven q ≤ n := by
  have := roundHalfEven_mono h
  rwa [roundHalfEven_intCast] at this

/-! ## The exponent of the last place -/

theorem two_zpow_pos (e : Int) : (0 : ℚ) < 2 ^ e :=
  zpow_pos (by norm_num) e

theorem two_zpow_le {a b : Int} (h : a ≤ b) : (2 : ℚ) ^ a ≤ 2 ^ b :=
  zpow_le_zpow_right₀ (by norm_num) h

theorem two_zpow_add (a b : Int) : (2 : ℚ) ^ (a + b) = 2 ^ a * 2 ^ b :=
  zpow_add₀ (by norm_num) a b

theorem ulpExp_ge (x : ℚ) : -1074 ≤ ulpExp x :=
  le_max_right _ _

theorem ulpExp_mono {x y : ℚ} (hx : 0 < x) (h : x ≤ y) : ulpExp x ≤ ulpExp y := by
  unfold ulpExp
  rw [abs_of_pos hx, abs_of_pos (lt_of_lt_of_le hx h)]
  have := Int.log_mono_right (b := 2) hx h
  exact max_le_max (by omega) (le_refl _)

theorem lt_zpow_ulpExp {x : ℚ} (hx : 0 < x) : x < 2 ^ (ulpExp x + 53) := by
  have h1 : x < ((2 : Nat) : ℚ) ^ (Int.log 2 x + 1) := Int.lt_zpow_succ_log_self (by norm_num) x
  have h2 : Int.log 2 x + 1 ≤ ulpExp x + 53 := by
    unfold ulpExp
    rw [abs_of_pos hx]
    have := le_max_left (Int.log 2 x - 52) (-1074)
    omega
  calc x < (2 : ℚ) ^ (Int.log 2 x + 1) := by exact_mod_cast h1
    _ ≤ 2 ^ (ulpExp x + 53) := two_zpow_le h2

theorem zpow_ulpExp_le {x : ℚ} (hx : 0 < x) (h : -1074 < ulpExp x) :
    (2 : ℚ) ^ (ulpExp x + 52) ≤ x := by
  have h1 : ((2 : Nat) : ℚ) ^ Int.log 2 x ≤ x := Int.zpow_log_le_self (by norm_num) hx
  have h2 : ulpExp x = Int.log 2 x - 52 := by
    unfold ulpExp at h ⊢
    rw [abs_of_pos hx] at h ⊢
    rcases max_cases (Int.log 2 x - 52) (-1074) with ⟨a, _⟩ | ⟨a, _⟩
    · exact a
    · rw [a] at h; omega
  rw [h2]
  have : Int.log 2 x - 52 + 52 = Int.log 2 x := by ring
  rw [this]
  exact_mod_cast h1

theorem ulpExp_eq_of_binade {x : ℚ} {k : Int} (h1 : (2 : ℚ) ^ k ≤ x) (h2 : x < 2 ^ (k + 1))
    (hk : -1022 ≤ k) : ulpExp x = k - 52 := by
  have hx : 0 < x := lt_of_lt_of_le (two_zpow_pos k) h1
  have a : k ≤ Int.log 2 x :=
    (Int.zpow_le_iff_le_log (b := 2) (by norm_num) hx).mp (by exact_mod_cast h1)
  have b : Int.log 2 x < k + 1 :=
    (Int.lt_zpow_iff_log_lt (b := 2) (by norm_num) hx).mp (by exact_mod_cast h2)
  unfold ulpExp
  rw [abs_of_pos hx]
  have : Int.log 2 x = k := by omega
  rw [this]
  exact max_eq_left (by omega)

theorem ulpExp_eq_of_subnormal {x : ℚ} (hx : 0 < x) (h2 : x < 2 ^ (-1022 : Int)) :
    ulpExp x = -1074 := by
  unfold ulpExp
  rw [abs_of_pos hx]
  apply max_eq_right
  have b : Int.log 2 x < -1022 :=
    (Int.lt_zpow_iff_log_lt (b := 2) (by norm_num) hx).mp (by exact_mod_cast h2)
  omega

/-! ## Rounding to binary64 -/

theorem flR_zero : flR 0 = 0 := by
  simp [flR, roundHalfEven]

theorem flR_nonneg {x : ℚ} (h : 0 ≤ x) : 0 ≤ flR x := by
  unfold flR
  have hq : ((0 : Int) : ℚ) ≤ x / 2 ^ ulpExp x := by
    push_cast
    exact div_nonneg h (le_of_lt (two_zpow_pos _))
  have := le_roundHalfEven hq
  exact mul_nonneg (by exact_mod_cast this) (le_of_lt (two_zpow_pos _))

theorem flR_sub_le (x : ℚ) : |flR x - x| ≤ 2 ^ ulpExp x / 2 := by
  have hp := two_zpow_pos (ulpExp x)
  have h := roundHalfEven_sub_le (x / 2 ^ ulpExp x)
  have e : flR x - x = ((roundHalfEven (x / 2 ^ ulpExp x) : ℚ) - x / 2 ^ ulpExp x) *
      2 ^ ulpExp x := by
    unfold flR
    field_simp
  rw [e, abs_mul, abs_of_pos hp]
  calc |((roundHalfEven (x / 2 ^ ulpExp x) : ℚ) - x / 2 ^ ulpExp x)| * 2 ^ ulpExp x
      ≤ 1 / 2 * 2 ^ ulpExp x := mul_le_mul_of_nonneg_right h (le_of_lt hp)
    _ = 2 ^ ulpExp x / 2 := by ring

theorem flR_le_zpow {x : ℚ} (hx : 0 < x) : flR x ≤ 2 ^ (ulpExp x + 53) := by
  have hp := two_zpow_pos (ulpExp x)
  have h1 := lt_zpow_ulpExp hx
  rw [two_zpow_add] at h1
  have hq : x / 2 ^ ulpExp x ≤ (((2 : Int) ^ 53 : Int) : ℚ) := by
    rw [div_le_iff₀ hp]
    push_cast
    have : (2 : ℚ) ^ (53 : Int) = 2 ^ 53 := by norm_num
    rw [this] at h1
    linarith
  have h2 := roundHalfEven_le hq
  have h3 : (roundHalfEven (x / 2 ^ ulpExp x) : ℚ) ≤ 2 ^ 53 := by exact_mod_cast h2
  unfold flR
  rw [two_zpow_add]
  have : (2 : ℚ) ^ (53 : Int) = 2 ^ 53 := by norm_num
  rw [this, mul_comm ((2 : ℚ) ^ ulpExp x)]
  exact mul_le_mul_of_nonneg_right h3 (le_of_lt hp)

theorem zpow_le_flR {x : ℚ} (hx : 0 < x) (h : -1074 < ulpExp x) :
    (2 : ℚ) ^ (ulpExp x + 52) ≤ flR x := by
  have hp := two_zpow_pos (ulpExp x)
  have h1 := zpow_ulpExp_le hx h
  rw [two_zpow_add] at h1
  have e52 : (2 : ℚ) ^ (52 : Int) = 2 ^ 52 := by norm_num
  have hq : (((2 : Int) ^ 52 : Int) : ℚ) ≤ x / 2 ^ ulpExp x := by
    rw [le_div_iff₀ hp]
    push_cast
    rw [e52] at h1
    linarith
  have h2 := le_roundHalfEven hq
  have h3 : (2 : ℚ) ^ 52 ≤ (roundHalfEven (x / 2 ^ ulpExp x) : ℚ) := by exact_mod_cast h2
  unfold flR
  rw [two_zpow_add, e52, mul_comm ((2 : ℚ) ^ ulpExp x)]
  exact mul_le_mul_of_nonneg_right h3 (le_of_lt hp)

theorem flR_mono {x y : ℚ} (hx : 0 ≤ x) (h : x ≤ y) : flR x ≤ flR y := by
  rcases eq_or_lt_of_le hx with h0 | hpos
  · rw [← h0, flR_zero]
    exact flR_nonneg (le_trans hx h)
  · have hy : 0 < y := lt_of_lt_of_le hpos h
    have hu := ulpExp_mono hpos h
    rcases eq_or_lt_of_le hu with he | hlt
    · have hp := two_zpow_pos (ulpExp y)
      unfold flR
      rw [he]
      have hq : x / 2 ^ ulpExp y ≤ y / 2 ^ ulpExp y := div_le_div_of_nonneg_right h (le_of_lt hp)
      have := roundHalfEven_mono hq
      exact mul_le_mul_of_nonneg_right (by exact_mod_cast this) (le_of_lt hp)
    · have hy1 : -1074 < ulpExp y := lt_of_le_of_lt (ulpExp_ge x) hlt
      calc flR x ≤ 2 ^ (ulpExp x + 53) := flR_le_zpow hpos
        _ ≤ 2 ^ (ulpExp y + 52) := two_zpow_le (by omega)
        _ ≤ flR y := zpow_le_flR hy hy1

theorem flR_of_isRep {x : ℚ} (h : IsRep x) (hx : 0 ≤ x) : flR x = x := by
  rcases eq_or_lt_of_le hx with h0 | hpos
  · rw [← h0, flR_zero]
  obtain ⟨m, e, he, hm, rfl⟩ := h
  have hpe := two_zpow_pos e
  have hmq : (m : ℚ) < 2 ^ 53 := by
    have : m < 2 ^ 53 := lt_of_le_of_lt (le_abs_self m) hm
    exact_mod_cast this
  have hlt : (m : ℚ) * 2 ^ e < 2 ^ (e + 53) := by
    rw [two_zpow_add]
    have : (2 : ℚ) ^ (53 : Int) = 2 ^ 53 := by norm_num
    rw [this, mul_comm ((2 : ℚ) ^ e)]
    exact mul_lt_mul_of_pos_right hmq hpe
  have hlog : Int.log 2 ((m : ℚ) * 2 ^ e) < e + 53 :=
    (Int.lt_zpow_iff_log_lt (b := 2) (by norm_num) hpos).mp (by exact_mod_cast hlt)
  have hu : ulpExp ((m : ℚ) * 2 ^ e) ≤ e := by
    unfold ulpExp
    rw [abs_of_pos hpos]
    exact max_le (by omega) he
  unfold flR
  generalize ulpExp ((m : ℚ) * 2 ^ e) = u at hu
  obtain ⟨k, rfl⟩ : ∃ k : Nat, e = u + k := ⟨(e - u).toNat, by omega⟩
  have hp := two_zpow_pos u
  have hdiv : (m : ℚ) * 2 ^ (u + (k : Int)) / 2 ^ u = ((m * 2 ^ k : Int) : ℚ) := by
    rw [div_eq_iff (ne_of_gt hp), two_zpow_add, zpow_natCast]
    push_cast
    ring
  rw [hdiv, roundHalfEven_intCast, two_zpow_add, zpow_natCast]
  push_cast
  ring

theorem isRep_flR {x : ℚ} (hx : 0 ≤ x) : IsRep (flR x) := by
  rcases eq_or_lt_of_le hx with h0 | hpos
  · rw [← h0, flR_zero]
    exact ⟨0, 0, by norm_num, by norm_num, by norm_num⟩
  have hp := two_zpow_pos (ulpExp x)
  have hM0 : 0 ≤ roundHalfEven (x / 2 ^ ulpExp x) := by
    apply le_roundHalfEven
    push_cast
    exact div_nonneg hx (le_of_lt hp)
  have hM1 : roundHalfEven (x / 2 ^ ulpExp x) ≤ 2 ^ 53 := by
    have h1 := flR_le_zpow hpos
    unfold flR at h1
    rw [two_zpow_add, mul_comm ((2 : ℚ) ^ ulpExp x)] at h1
    have h2 := le_of_mul_le_mul_right h1 hp
    have : (2 : ℚ) ^ (53 : Int) = 2 ^ 53 := by norm_num
    rw [this] at h2
    exact_mod_cast h2
  rcases eq_or_lt_of_le hM1 with heq | hlt
  · refine ⟨2 ^ 52, ulpExp x + 1, by have := ulpExp_ge x; omega, by norm_num, ?_⟩
    unfold flR
    rw [heq, two_zpow_add]
    push_cast
    norm_num
    ring
  · exact ⟨roundHalfEven (x / 2 ^ ulpExp x), ulpExp x, ulpExp_ge x,
      by rw [abs_of_nonneg hM0]; exact hlt, rfl⟩

/-! ## Finite doubles -/

theorem isDouble_iff {x : ℚ} : IsDouble x ↔ flR x = x ∧ |x| < 2 ^ 1024 := by
  unfold IsDouble fl
  constructor
  · intro h
    split_ifs at h with hc
    have := Option.some.inj h
    rw [this] at hc
    exact ⟨this, hc⟩
  · rintro ⟨h1, h2⟩
    rw [h1, if_pos h2]

theorem isDouble_of_isRep {x : ℚ} (h : IsRep x) (h0 : 0 ≤ x) (h1 : x < 2 ^ 1024) :
    IsDouble x :=
  isDouble_iff.mpr ⟨flR_of_isRep h h0, by rw [abs_of_nonneg h0]; exact h1⟩

theorem isRep_of_isDouble {x : ℚ} (h : IsDouble x) (h0 : 0 ≤ x) : IsRep x := by
  have := (isDouble_iff.mp h).1
  rw [← this]
  exact isRep_flR h0

theorem lt_of_isDouble {x : ℚ} (h : IsDouble x) : x < 2 ^ 1024 :=
  lt_of_le_of_lt (le_abs_self x) (isDouble_iff.mp h).2

theorem isDouble_flR {x : ℚ} (h0 : 0 ≤ x) (h1 : flR x < 2 ^ 1024) : IsDouble (flR x) :=
  isDouble_of_isRep (isRep_flR h0) (flR_nonneg h0) h1

/-- Rounding a value between 0 and a finite double gives a finite double
between 0 and that double. -/
theorem fl_of_le {x y : ℚ} (h0 : 0 ≤ x) (h : x ≤ y) (hy : IsDouble y) :
    fl x = some (flR x) ∧ 0 ≤ flR x ∧ flR x ≤ y ∧ IsDouble (flR x) := by
  have hle : flR x ≤ y := by
    have := flR_mono h0 h
    rwa [(isDouble_iff.mp hy).1] at this
  have hlt : flR x < 2 ^ 1024 := lt_of_le_of_lt hle (lt_of_isDouble hy)
  have hnn := flR_nonneg h0
  refine ⟨?_, hnn, hle, isDouble_flR h0 hlt⟩
  unfold fl
  rw [if_pos (by rw [abs_of_nonneg hnn]; exact hlt)]

theorem fl_of_isDouble {x : ℚ} (h : IsDouble x) : fl x = some x := h

theorem isDouble_intCast {n : Int} (h0 : 0 ≤ n) (h1 : n < 2 ^ 53) : IsDouble (n : ℚ) := by
  apply isDouble_of_isRep ⟨n, 0, by norm_num, by rw [abs_of_nonneg h0]; exact h1, by simp⟩
  · exact_mod_cast h0
  · have : (n : ℚ) < 2 ^ 53 := by exact_mod_cast h1
    have h2 : (2 : ℚ) ^ 53 ≤ 2 ^ 1024 := by norm_num
    linarith

/-! ## Quantisation in binary64 -/

theorem flR_intCast {n : Int} (h0 : 0 ≤ n) (h1 : n < 2 ^ 53) : flR (n : ℚ) = n :=
  (isDouble_iff.mp (isDouble_intCast h0 h1)).1

/-- Evaluation of `flR` in a normal binade from an integer significand within
half a unit of the scaled argument. -/
theorem flR_eq_of_abs_lt {x : ℚ} (k m : Int) (h1 : (2 : ℚ) ^ k ≤ x) (h2 : x < 2 ^ (k + 1))
    (hk : -1022 ≤ k) (hm : |x / 2 ^ (k - 52) - m| < 1 / 2) : flR x = m * 2 ^ (k - 52) := by
  unfold flR
  rw [ulpExp_eq_of_binade h1 h2 hk, roundHalfEven_eq_of_abs_lt hm]

theorem floor_flR_bounds {x : ℚ} (h0 : 0 ≤ x) (h1 : x < 2 ^ 52) :
    ⌊x⌋ ≤ ⌊flR x⌋ ∧ ⌊flR x⌋ ≤ ⌊x⌋ + 1 := by
  have hf0 : 0 ≤ ⌊x⌋ := Int.floor_nonneg.mpr h0
  have hf1 : ⌊x⌋ < 2 ^ 53 := by
    have : ⌊x⌋ < 2 ^ 52 := Int.floor_lt.mpr (by push_cast; exact h1)
    omega
  have hfq : (0 : ℚ) ≤ (⌊x⌋ : ℚ) := by exact_mod_cast hf0
  have lo : ((⌊x⌋ : Int) : ℚ) ≤ flR x := by
    have := flR_mono hfq (Int.floor_le x)
    rwa [flR_intCast hf0 hf1] at this
  have hi : flR x ≤ ((⌊x⌋ + 1 : Int) : ℚ) := by
    have := flR_mono h0 (le_of_lt (Int.lt_floor_add_one x))
    have e := flR_intCast (n := ⌊x⌋ + 1) (by omega) (by
      have : ⌊x⌋ < 2 ^ 52 := Int.floor_lt.mpr (by push_cast; exact h1)
      omega)
    push_cast at e ⊢
    rwa [e] at this
  constructor
  · exact Int.le_floor.mpr lo
  · have := Int.floor_mono hi
    rwa [Int.floor_intCast] at this

theorem quantize64_eq {v : ℚ} (h0 : 0 ≤ v) (h1 : v ≤ 1) :
    quantize64 v = some ⌊flR (v * 65535)⌋.toNat ∧ 0 ≤ flR (v * 65535) ∧
      flR (v * 65535) ≤ 65535 := by
  have hx0 : (0 : ℚ) ≤ v * 65535 := by positivity
  have hx1 : v * 65535 ≤ ((65535 : Int) : ℚ) := by push_cast; linarith
  have hd : IsDouble ((65535 : Int) : ℚ) := isDouble_intCast (by norm_num) (by norm_num)
  obtain ⟨a, b, c, _⟩ := fl_of_le hx0 hx1 hd
  push_cast at c
  refine ⟨?_, b, c⟩
  rw [quantize64, MAX_VALUE, a, Option.some_bind]
  exact toUnsigned_of_floor b (by linarith)

/-- C10 (as stated, refuted): at the double nearest 0.6 the exact product
`v * 65535` is below 39321 and its floor is 39320, but the product the code
computes is rounded to 39321.0 before the conversion, which returns 39321. -/
theorem quantize64_exceeds_exact_floor :
    IsDouble (5404319552844595 / 9007199254740992) ∧
    fl (3 / 5) = some (5404319552844595 / 9007199254740992) ∧
    ⌊(5404319552844595 / 9007199254740992 : ℚ) * 65535⌋ = 39320 ∧
    fl ((5404319552844595 / 9007199254740992 : ℚ) * 65535) = some 39321 ∧
    quantize64 (5404319552844595 / 9007199254740992) = some 39321 := by
  have hrep : IsRep (5404319552844595 / 9007199254740992) :=
    ⟨5404319552844595, -53, by norm_num, by norm_num, by norm_num⟩
  have hd : IsDouble (5404319552844595 / 9007199254740992) :=
    isDouble_of_isRep hrep (by norm_num) (by norm_num)
  have h35 : flR (3 / 5) = 5404319552844595 / 9007199254740992 := by
    rw [flR_eq_of_abs_lt (-1) 5404319552844595 (by norm_num) (by norm_num) (by norm_num)
      (by rw [abs_lt]; constructor <;> norm_num)]
    norm_num
  have hprod : flR ((5404319552844595 / 9007199254740992 : ℚ) * 65535) = 39321 := by
    rw [flR_eq_of_abs_lt 15 5404237089472512 (by norm_num) (by norm_num) (by norm_num)
      (by rw [abs_lt]; constructor <;> norm_num)]
    norm_num
  refine ⟨hd, ?_, ?_, ?_, ?_⟩
  · unfold fl
    rw [h35, if_pos (by rw [abs_lt]; constructor <;> norm_num)]
  · rw [Int.floor_eq_iff]; constructor <;> norm_num
  · unfold fl
    rw [hprod, if_pos (by rw [abs_lt]; constructor <;> norm_num)]
  · rw [(quantize64_eq (by norm_num) (by norm_num)).1, hprod]
    norm_num
    rfl

/-- C10 (amended): for every value `v` in `[0, 1]` the quantisation
`(unsigned int)(v * 0xFFFF)` is defined and returns the integer part of the
binary64 product, which is `floor (v * 65535)` or one more; the result is in
`[0, 65535]`, 0 is mapped to 0 and 1 to 65535, and the fractional part of the
product is dropped rather than rounded (0.5 gives 32767, not 32768). -/
theorem quantize64_unit_interval (v : ℚ) (h0 : 0 ≤ v) (h1 : v ≤ 1) :
    quantize64 v = some ⌊flR (v * 65535)⌋.toNat ∧
    (⌊flR (v * 65535)⌋.toNat = ⌊v * 65535⌋.toNat ∨
      ⌊flR (v * 65535)⌋.toNat = ⌊v * 65535⌋.toNat + 1) ∧
    ⌊flR (v * 65535)⌋.toNat ≤ 65535 ∧
    quantize64 0 = some 0 ∧
    quantize64 1 = some 65535 ∧
    quantize64 (1 / 2) = some 32767 := by
  obtain ⟨a, b, c⟩ := quantize64_eq h0 h1
  have hx0 : (0 : ℚ) ≤ v * 65535 := by positivity
  have hfl := floor_flR_bounds hx0 (by
    have : (65535 : ℚ) < 2 ^ 52 := by norm_num
    linarith)
  have hf0 : 0 ≤ ⌊v * 65535⌋ := Int.floor_nonneg.mpr hx0
  refine ⟨a, ?_, ?_, ?_, ?_, ?_⟩
  · omega
  · rw [Int.toNat_le]
    exact Int.floor_le_iff.mpr (by push_cast; linarith)
  · rw [(quantize64_eq (le_refl 0) (by norm_num)).1]
    norm_num [flR_zero]
  · rw [(quantize64_eq (by norm_num) (le_refl 1)).1, one_mul]
    have := flR_intCast (n := 65535) (by norm_num) (by norm_num)
    push_cast at this
    rw [this]
    norm_num
    rfl
  · rw [(quantize64_eq (by norm_num) (by norm_num)).1]
    have hrep : IsRep ((1 / 2 : ℚ) * 65535) :=
      ⟨65535, -1, by norm_num, by norm_num, by norm_num⟩
    rw [flR_of_isRep hrep (by norm_num)]
    have : ⌊(1 / 2 : ℚ) * 65535⌋ = 32767 := by
      rw [Int.floor_eq_iff]; constructor <;> norm_num
    rw [this]
    rfl

theorem quantize64_unit_interval_witness :
    quantize64 (1 / 3) = some ⌊flR ((1 / 3 : ℚ) * 65535)⌋.toNat ∧
    ⌊flR ((1 / 3 : ℚ) * 65535)⌋.toNat ≤ 65535 :=
  ⟨(quantize64_unit_interval (1 / 3) (by norm_num) (by norm_num)).1,
   (quantize64_unit_interval (1 / 3) (by norm_num) (by norm_num)).2.2.1⟩

/-! ## Frequency decrease in binary64 -/

theorem isRep_multiple {x : ℚ} (h : IsRep x) : ∃ n : Int, x = n * 2 ^ (-1074 : Int) := by
  obtain ⟨m, e, he, _, rfl⟩ := h
  obtain ⟨k, rfl⟩ : ∃ k : Nat, e = -1074 + k := ⟨(e + 1074).toNat, by omega⟩
  refine ⟨m * 2 ^ k, ?_⟩
  rw [two_zpow_add, zpow_natCast]
  push_cast
  ring

/-- Two distinct binary64 numbers differ by at least the smallest subnormal. -/
theorem sub_ge_of_isRep {x y : ℚ} (hx : IsRep x) (hy : IsRep y) (h : y < x) :
    (2 : ℚ) ^ (-1074 : Int) ≤ x - y := by
  obtain ⟨a, rfl⟩ := isRep_multiple hx
  obtain ⟨b, rfl⟩ := isRep_multiple hy
  have hp := two_zpow_pos (-1074)
  have hab : (b : ℚ) < a := lt_of_mul_lt_mul_right h (le_of_lt hp)
  have hab' : b + 1 ≤ a := by
    have : b < a := by exact_mod_cast hab
    omega
  have hq : (b : ℚ) + 1 ≤ a := by exact_mod_cast hab'
  nlinarith

theorem isRep_min_subnormal : IsRep (2 ^ (-1074 : Int)) :=
  ⟨1, -1074, le_refl _, by norm_num, by norm_num⟩

theorem flR_pos_of_ge {x : ℚ} (h : (2 : ℚ) ^ (-1074 : Int) ≤ x) : 0 < flR x := by
  have hp := two_zpow_pos (-1074)
  have := flR_mono (le_of_lt hp) h
  rw [flR_of_isRep isRep_min_subnormal (le_of_lt hp)] at this
  linarith

theorem isRep_DOUBLE_0_1 : IsRep DOUBLE_0_1 :=
  ⟨3602879701896397, -55, by norm_num, by norm_num, by norm_num [DOUBLE_0_1]⟩

theorem fl_one_tenth : fl (1 / 10) = some DOUBLE_0_1 := by
  have h : flR (1 / 10) = DOUBLE_0_1 := by
    rw [flR_eq_of_abs_lt (-4) 7205759403792794 (by norm_num) (by norm_num) (by norm_num)
      (by rw [abs_lt]; constructor <;> norm_num)]
    norm_num [DOUBLE_0_1]
  unfold fl
  rw [h, if_pos (by rw [abs_lt]; constructor <;> norm_num [DOUBLE_0_1])]

/-- The rounded difference of a finite double above the double 0.1 and that
constant is a positive finite double not above the minuend. -/
theorem fl_sub_DOUBLE_0_1 {f : ℚ} (hd : IsDouble f) (h : DOUBLE_0_1 < f) :
    fl (f - DOUBLE_0_1) = some (flR (f - DOUBLE_0_1)) ∧ 0 < flR (f - DOUBLE_0_1) ∧
      flR (f - DOUBLE_0_1) ≤ f ∧ IsDouble (flR (f - DOUBLE_0_1)) := by
  have hc : (0 : ℚ) < DOUBLE_0_1 := by norm_num [DOUBLE_0_1]
  have hf0 : 0 ≤ f := by linarith
  obtain ⟨a, _, c, d⟩ := fl_of_le (x := f - DOUBLE_0_1) (by linarith) (by linarith) hd
  exact ⟨a, flR_pos_of_ge (sub_ge_of_isRep (isRep_of_isDouble hd hf0) isRep_DOUBLE_0_1 h), c, d⟩

theorem handleArrow64_down (p : WaveParams) :
    handleArrow64 KEY_DOWN p =
      if p.frequency > DOUBLE_0_1 then
        (fl (p.frequency - DOUBLE_0_1)).map fun f => { p with frequency := f }
      else some p := by
  simp [handleArrow64, KEY_DOWN, KEY_UP]

theorem applyArrows64_cons (a : Int) (rest : List Int) (p : WaveParams) :
    applyArrows64 (a :: rest) p = (handleArrow64 a p).bind (applyArrows64 rest) := by
  simp [applyArrows64, List.foldlM_cons]

theorem iterate_down64 (n : Nat) (p : WaveParams) (hd : IsDouble p.frequency)
    (hp : 0 < p.frequency) :
    ∃ q : WaveParams, applyArrows64 (List.replicate n KEY_DOWN) p = some q ∧
      0 < q.frequency ∧ IsDouble q.frequency ∧ q.type = p.type ∧
      q.amplitude = p.amplitude ∧ q.steps = p.steps := by
  induction n generalizing p with
  | zero => exact ⟨p, rfl, hp, hd, rfl, rfl, rfl⟩
  | succ k ih =>
    rw [List.replicate_succ, applyArrows64_cons, handleArrow64_down]
    by_cases h : p.frequency > DOUBLE_0_1
    · obtain ⟨a, b, _, d⟩ := fl_sub_DOUBLE_0_1 hd h
      rw [if_pos h, a, Option.map_some', Option.some_bind]
      obtain ⟨q, h1, h2, h3, h4, h5, h6⟩ :=
        ih { p with frequency := flR (p.frequency - DOUBLE_0_1) } d b
      exact ⟨q, h1, h2, h3, h4, h5, h6⟩
    · rw [if_neg h, Option.some_bind]
      exact ih p hd hp

/-- C2 (as stated, refuted): from the double 0.125 Hz, where `f - 0.1 <= 0.1`,
the Down arrow is not rejected; the frequency becomes the double nearest
0.025 Hz, a value `<= 0.1` reached from a frequency `> 0.1`. -/
theorem down_arrow64_below_floor_not_rejected :
    IsDouble (1 / 8) ∧ ((1 / 8 : ℚ) - DOUBLE_0_1 ≤ DOUBLE_0_1) ∧ (DOUBLE_0_1 < 1 / 8) ∧
    handleArrow64 KEY_DOWN ⟨.WAVE_SINE, 1 / 8, 1, 100⟩ =
      some ⟨.WAVE_SINE, 900719925474099 / 36028797018963968, 1, 100⟩ ∧
    handleArrow64 KEY_DOWN ⟨.WAVE_SINE, 1 / 8, 1, 100⟩ ≠ some ⟨.WAVE_SINE, 1 / 8, 1, 100⟩ ∧
    (900719925474099 / 36028797018963968 : ℚ) ≤ DOUBLE_0_1 := by
  have hd : IsDouble (1 / 8) :=
    isDouble_of_isRep ⟨1, -3, by norm_num, by norm_num, by norm_num⟩ (by norm_num)
      (by norm_num)
  have hrep : IsRep ((1 / 8 : ℚ) - DOUBLE_0_1) :=
    ⟨900719925474099, -55, by norm_num, by norm_num, by norm_num [DOUBLE_0_1]⟩
  have hfl : fl ((1 / 8 : ℚ) - DOUBLE_0_1) = some (900719925474099 / 36028797018963968) := by
    have := isDouble_of_isRep hrep (by norm_num [DOUBLE_0_1]) (by norm_num [DOUBLE_0_1])
    unfold IsDouble at this
    rw [this]
    norm_num [DOUBLE_0_1]
  have hgt : (1 / 8 : ℚ) > DOUBLE_0_1 := by norm_num [DOUBLE_0_1]
  have hval : handleArrow64 KEY_DOWN ⟨.WAVE_SINE, 1 / 8, 1, 100⟩ =
      some ⟨.WAVE_SINE, 900719925474099 / 36028797018963968, 1, 100⟩ := by
    rw [handleArrow64_down]
    simp only [if_pos hgt, hfl, Option.map_some']
  refine ⟨hd, by norm_num [DOUBLE_0_1], hgt, hval, ?_, by norm_num [DOUBLE_0_1]⟩
  rw [hval]
  norm_num

/-- C2 (amended): the Down arrow tests the current frequency against the
double 0.1. When the frequency is `<= 0.1` the parameters are left as they
are; otherwise only the frequency changes, to the binary64 difference
`f - 0.1`, which is a positive finite double not above `f`. So from any
frequency `> 0` every sequence of Down arrows leaves a frequency `> 0`. -/
theorem down_arrow64_guards_current_frequency (p : WaveParams)
    (hd : IsDouble p.frequency) :
    fl (1 / 10) = some DOUBLE_0_1 ∧
    (p.frequency ≤ DOUBLE_0_1 → handleArrow64 KEY_DOWN p = some p) ∧
    (DOUBLE_0_1 < p.frequency →
      ∃ g : ℚ, fl (p.frequency - DOUBLE_0_1) = some g ∧
        handleArrow64 KEY_DOWN p = some { p with frequency := g } ∧
        0 < g ∧ g ≤ p.frequency ∧ IsDouble g) ∧
    (0 < p.frequency → ∀ n : Nat,
      ∃ q : WaveParams, applyArrows64 (List.replicate n KEY_DOWN) p = some q ∧
        0 < q.frequency ∧ IsDouble q.frequency ∧ q.type = p.type ∧
        q.amplitude = p.amplitude ∧ q.steps = p.steps) := by
  refine ⟨fl_one_tenth, fun h => ?_, fun h => ?_, fun h n => iterate_down64 n p hd h⟩
  · rw [handleArrow64_down, if_neg (not_lt.mpr h)]
  · obtain ⟨a, b, c, d⟩ := fl_sub_DOUBLE_0_1 hd h
    refine ⟨_, a, ?_, b, c, d⟩
    rw [handleArrow64_down, if_pos h, a, Option.map_some']

theorem down_arrow64_guards_current_frequency_witness :
    (handleArrow64 KEY_DOWN ⟨.WAVE_SINE, DOUBLE_0_1, 1, 100⟩ =
      some ⟨.WAVE_SINE, DOUBLE_0_1, 1, 100⟩) ∧
    (∃ g : ℚ, fl ((1 : ℚ) - DOUBLE_0_1) = some g ∧
      handleArrow64 KEY_DOWN ⟨.WAVE_SINE, 1, 1, 100⟩ = some ⟨.WAVE_SINE, g, 1, 100⟩ ∧
      0 < g ∧ g ≤ 1 ∧ IsDouble g) ∧
    (∀ n : Nat, ∃ q : WaveParams,
      applyArrows64 (List.replicate n KEY_DOWN) ⟨.WAVE_SINE, 1, 1, 100⟩ = some q ∧
        0 < q.frequency ∧ IsDouble q.frequency ∧ q.type = .WAVE_SINE ∧
        q.amplitude = 1 ∧ q.steps = 100) :=
  ⟨(down_arrow64_guards_current_frequency ⟨.WAVE_SINE, DOUBLE_0_1, 1, 100⟩
      (isDouble_of_isRep isRep_DOUBLE_0_1 (by norm_num [DOUBLE_0_1])
        (by norm_num [DOUBLE_0_1]))).2.1 (le_refl _),
   (down_arrow64_guards_current_frequency ⟨.WAVE_SINE, 1, 1, 100⟩
      (isDouble_of_isRep ⟨1, 0, by norm_num, by norm_num, by norm_num⟩ (by norm_num)
        (by norm_num))).2.2.1 (by norm_num [DOUBLE_0_1]),
   (down_arrow64_guards_current_frequency ⟨.WAVE_SINE, 1, 1, 100⟩
      (isDouble_of_isRep ⟨1, 0, by norm_num, by norm_num, by norm_num⟩ (by norm_num)
        (by norm_num))).2.2.2 (by norm_num)⟩

theorem flR_binade {x : ℚ} (k : Int) (h1 : (2 : ℚ) ^ k ≤ x) (h2 : x < 2 ^ (k + 1))
    (hk : -1022 ≤ k) : flR x = roundHalfEven (x / 2 ^ (k - 52)) * 2 ^ (k - 52) := by
  unfold flR
  rw [ulpExp_eq_of_binade h1 h2 hk]

theorem roundHalfEven_tie (n : Int) :
    roundHalfEven ((n : ℚ) + 1 / 2) = if n % 2 = 0 then n else n + 1 := by
  have hfl : ⌊(n : ℚ) + 1 / 2⌋ = n := by
    rw [Int.floor_eq_iff]; constructor <;> linarith
  unfold roundHalfEven
  rw [hfl]
  rw [if_neg (by linarith), if_neg (by linarith)]


/-- Ten Down arrows from the default 1.0 Hz in binary64: the ninth leaves a
frequency just above the double 0.1, so the tenth is applied too and leaves
`5 * 2^-55` Hz, about `1.39e-16`. -/
theorem ten_down_arrows64 :
    applyArrows64 (List.replicate 10 KEY_DOWN) defaultParams =
      some ⟨.WAVE_SINE, 5 / 36028797018963968, 1, 100⟩ := by
  have s0 : fl ((1 : ℚ) - DOUBLE_0_1) = some (8106479329266893 / 9007199254740992) := by
    have h : flR ((1 : ℚ) - DOUBLE_0_1) = 8106479329266893 / 9007199254740992 := by
      rw [flR_eq_of_abs_lt (-1) 8106479329266893 (by norm_num [DOUBLE_0_1]) (by norm_num [DOUBLE_0_1])
        (by norm_num) (by rw [abs_lt]; constructor <;> norm_num [DOUBLE_0_1])]
      norm_num
    unfold fl
    rw [h, if_pos (by rw [abs_lt]; constructor <;> norm_num)]
  have s1 : fl ((8106479329266893 / 9007199254740992 : ℚ) - DOUBLE_0_1) = some (3602879701896397 / 4503599627370496) := by
    have h : flR ((8106479329266893 / 9007199254740992 : ℚ) - DOUBLE_0_1) = 3602879701896397 / 4503599627370496 := by
      rw [flR_eq_of_abs_lt (-1) 7205759403792794 (by norm_num [DOUBLE_0_1]) (by norm_num [DOUBLE_0_1])
        (by norm_num) (by rw [abs_lt]; constructor <;> norm_num [DOUBLE_0_1])]
      norm_num
    unfold fl
    rw [h, if_pos (by rw [abs_lt]; constructor <;> norm_num)]
  have s2 : fl ((3602879701896397 / 4503599627370496 : ℚ) - DOUBLE_0_1) = some (6305039478318695 / 9007199254740992) := by
    have h : flR ((3602879701896397 / 4503599627370496 : ℚ) - DOUBLE_0_1) = 6305039478318695 / 9007199254740992 := by
      rw [flR_eq_of_abs_lt (-1) 6305039478318695 (by norm_num [DOUBLE_0_1]) (by norm_num [DOUBLE_0_1])
        (by norm_num) (by rw [abs_lt]; constructor <;> norm_num [DOUBLE_0_1])]
      norm_num
    unfold fl
    rw [h, if_pos (by rw [abs_lt]; constructor <;> norm_num)]
  have s3 : fl ((6305039478318695 / 9007199254740992 : ℚ) - DOUBLE_0_1) = some (1351079888211149 / 2251799813685248) := by
    have h : flR ((6305039478318695 / 9007199254740992 : ℚ) - DOUBLE_0_1) = 1351079888211149 / 2251799813685248 := by
      rw [flR_eq_of_abs_lt (-1) 5404319552844596 (by norm_num [DOUBLE_0_1]) (by norm_num [DOUBLE_0_1])
        (by norm_num) (by rw [abs_lt]; constructor <;> norm_num [DOUBLE_0_1])]
      norm_num
    unfold fl
    rw [h, if_pos (by rw [abs_lt]; constructor <;> norm_num)]
  have s4 : fl ((1351079888211149 / 2251799813685248 : ℚ) - DOUBLE_0_1) = some (4503599627370497 / 9007199254740992) := by
    have h : flR ((1351079888211149 / 2251799813685248 : ℚ) - DOUBLE_0_1) = 4503599627370497 / 9007199254740992 := by
      rw [flR_eq_of_abs_lt (-1) 4503599627370497 (by norm_num [DOUBLE_0_1]) (by norm_num [DOUBLE_0_1])
        (by norm_num) (by rw [abs_lt]; constructor <;> norm_num [DOUBLE_0_1])]
      norm_num
    unfold fl
    rw [h, if_pos (by rw [abs_lt]; constructor <;> norm_num)]
  have s5 : fl ((4503599627370497 / 9007199254740992 : ℚ) - DOUBLE_0_1) = some (1801439850948199 / 4503599627370496) := by
    have h : flR ((4503599627370497 / 9007199254740992 : ℚ) - DOUBLE_0_1) = 1801439850948199 / 4503599627370496 := by
      rw [flR_binade (-2) (by norm_num [DOUBLE_0_1]) (by norm_num [DOUBLE_0_1]) (by norm_num)]
      have e : ((4503599627370497 / 9007199254740992 : ℚ) - DOUBLE_0_1) / 2 ^ ((-2 : Int) - 52) =
          ((7205759403792795 : Int) : ℚ) + 1 / 2 := by norm_num [DOUBLE_0_1]
      rw [e, roundHalfEven_tie]
      norm_num
    unfold fl
    rw [h, if_pos (by rw [abs_lt]; constructor <;> norm_num)]
  have s6 : fl ((1801439850948199 / 4503599627370496 : ℚ) - DOUBLE_0_1) = some (2702159776422299 / 9007199254740992) := by
    have h : flR ((1801439850948199 / 4503599627370496 : ℚ) - DOUBLE_0_1) = 2702159776422299 / 9007199254740992 := by
      rw [flR_binade (-2) (by norm_num [DOUBLE_0_1]) (by norm_num [DOUBLE_0_1]) (by norm_num)]
      have e : ((1801439850948199 / 4503599627370496 : ℚ) - DOUBLE_0_1) / 2 ^ ((-2 : Int) - 52) =
          ((5404319552844597 : Int) : ℚ) + 1 / 2 := by norm_num [DOUBLE_0_1]
      rw [e, roundHalfEven_tie]
      norm_num
    unfold fl
    rw [h, if_pos (by rw [abs_lt]; constructor <;> norm_num)]
  have s7 : fl ((2702159776422299 / 9007199254740992 : ℚ) - DOUBLE_0_1) = some (7205759403792799 / 36028797018963968) := by
    have h : flR ((2702159776422299 / 9007199254740992 : ℚ) - DOUBLE_0_1) = 7205759403792799 / 36028797018963968 := by
      rw [flR_eq_of_abs_lt (-3) 7205759403792799 (by norm_num [DOUBLE_0_1]) (by norm_num [DOUBLE_0_1])
        (by norm_num) (by rw [abs_lt]; constructor <;> norm_num [DOUBLE_0_1])]
      norm_num
    unfold fl
    rw [h, if_pos (by rw [abs_lt]; constructor <;> norm_num)]
  have s8 : fl ((7205759403792799 / 36028797018963968 : ℚ) - DOUBLE_0_1) = some (1801439850948201 / 18014398509481984) := by
    have h : flR ((7205759403792799 / 36028797018963968 : ℚ) - DOUBLE_0_1) = 1801439850948201 / 18014398509481984 := by
      rw [flR_eq_of_abs_lt (-4) 7205759403792804 (by norm_num [DOUBLE_0_1]) (by norm_num [DOUBLE_0_1])
        (by norm_num) (by rw [abs_lt]; constructor <;> norm_num [DOUBLE_0_1])]
      norm_num
    unfold fl
    rw [h, if_pos (by rw [abs_lt]; constructor <;> norm_num)]
  have s9 : fl ((1801439850948201 / 18014398509481984 : ℚ) - DOUBLE_0_1) = some (5 / 36028797018963968) := by
    have h : flR ((1801439850948201 / 18014398509481984 : ℚ) - DOUBLE_0_1) = 5 / 36028797018963968 := by
      rw [flR_eq_of_abs_lt (-53) 5629499534213120 (by norm_num [DOUBLE_0_1]) (by norm_num [DOUBLE_0_1])
        (by norm_num) (by rw [abs_lt]; constructor <;> norm_num [DOUBLE_0_1])]
      norm_num
    unfold fl
    rw [h, if_pos (by rw [abs_lt]; constructor <;> norm_num)]
  have g : ∀ (f f2 : ℚ), DOUBLE_0_1 < f → fl (f - DOUBLE_0_1) = some f2 →
      handleArrow64 KEY_DOWN ⟨.WAVE_SINE, f, 1, 100⟩ = some ⟨.WAVE_SINE, f2, 1, 100⟩ := by
    intro f f2 hgt hfl
    rw [handleArrow64_down]
    simp only [gt_iff_lt, hgt, if_true, hfl, Option.map_some']
  simp only [List.replicate, applyArrows64_cons, defaultParams]
  rw [g 1 _ (by norm_num [DOUBLE_0_1]) s0, Option.some_bind]
  rw [g (8106479329266893 / 9007199254740992) _ (by norm_num [DOUBLE_0_1]) s1, Option.some_bind]
  rw [g (3602879701896397 / 4503599627370496) _ (by norm_num [DOUBLE_0_1]) s2, Option.some_bind]
  rw [g (6305039478318695 / 9007199254740992) _ (by norm_num [DOUBLE_0_1]) s3, Option.some_bind]
  rw [g (1351079888211149 / 2251799813685248) _ (by norm_num [DOUBLE_0_1]) s4, Option.some_bind]
  rw [g (4503599627370497 / 9007199254740992) _ (by norm_num [DOUBLE_0_1]) s5, Option.some_bind]
  rw [g (1801439850948199 / 4503599627370496) _ (by norm_num [DOUBLE_0_1]) s6, Option.some_bind]
  rw [g (2702159776422299 / 9007199254740992) _ (by norm_num [DOUBLE_0_1]) s7, Option.some_bind]
  rw [g (7205759403792799 / 36028797018963968) _ (by norm_num [DOUBLE_0_1]) s8, Option.some_bind]
  rw [g (1801439850948201 / 18014398509481984) _ (by norm_num [DOUBLE_0_1]) s9, Option.some_bind]
  rfl

/-! ## Inter-sample delay in binary64 -/

theorem fl_eq_some {x : ℚ} (h0 : 0 ≤ x) (h1 : flR x < 2 ^ 1024) : fl x = some (flR x) := by
  unfold fl
  rw [if_pos (by rw [abs_of_nonneg (flR_nonneg h0)]; exact h1)]

theorem isRep_zero : IsRep 0 :=
  ⟨0, 0, by norm_num, by norm_num, by norm_num⟩

/-- The integer part and the fractional part of a nonnegative binary64 number
are binary64 numbers. -/
theorem isRep_floor_fract {d : ℚ} (h : IsRep d) (h0 : 0 ≤ d) :
    IsRep (⌊d⌋ : ℚ) ∧ IsRep (d - ⌊d⌋) := by
  obtain ⟨m, e, he, hm, rfl⟩ := h
  have hpe := two_zpow_pos e
  have hm0 : 0 ≤ m := by
    have : (0 : ℚ) ≤ (m : ℚ) := nonneg_of_mul_nonneg_left h0 hpe
    exact_mod_cast this
  rw [abs_of_nonneg hm0] at hm
  by_cases hneg : 0 ≤ e
  · obtain ⟨k, rfl⟩ : ∃ k : Nat, e = k := ⟨e.toNat, by omega⟩
    have hint : (m : ℚ) * 2 ^ (k : Int) = ((m * 2 ^ k : Int) : ℚ) := by
      rw [zpow_natCast]; push_cast; ring
    rw [hint, Int.floor_intCast, sub_self]
    refine ⟨?_, isRep_zero⟩
    rw [← hint]
    exact ⟨m, k, he, by rw [abs_of_nonneg hm0]; exact hm, rfl⟩
  · obtain ⟨k, rfl⟩ : ∃ k : Nat, e = -(k : Int) := ⟨(-e).toNat, by omega⟩
    have hval : (m : ℚ) * 2 ^ (-(k : Int)) = (m : ℚ) / ((2 ^ k : Nat) : ℚ) := by
      rw [zpow_neg, zpow_natCast]; push_cast; ring
    have hfl : ⌊(m : ℚ) * 2 ^ (-(k : Int))⌋ = m / ((2 ^ k : Nat) : Int) := by
      rw [hval, Rat.floor_intCast_div_natCast]
    have hkpos : (0 : Int) < ((2 ^ k : Nat) : Int) := by positivity
    have hdiv0 : 0 ≤ m / ((2 ^ k : Nat) : Int) := Int.ediv_nonneg hm0 (le_of_lt hkpos)
    have hdivle : m / ((2 ^ k : Nat) : Int) ≤ m := Int.ediv_le_self _ hm0
    have hmod0 : 0 ≤ m % ((2 ^ k : Nat) : Int) := Int.emod_nonneg _ (ne_of_gt hkpos)
    have hmodle : m % ((2 ^ k : Nat) : Int) ≤ m := by
      have := Int.emod_add_ediv m ((2 ^ k : Nat) : Int)
      nlinarith
    constructor
    · rw [hfl]
      exact ⟨m / ((2 ^ k : Nat) : Int), 0, by norm_num,
        by rw [abs_of_nonneg hdiv0]; omega, by simp⟩
    · refine ⟨m % ((2 ^ k : Nat) : Int), -(k : Int), he,
        by rw [abs_of_nonneg hmod0]; omega, ?_⟩
      rw [hfl]
      have hsplit := Int.emod_add_ediv m ((2 ^ k : Nat) : Int)
      have hq : (m : ℚ) = ((m % ((2 ^ k : Nat) : Int) : Int) : ℚ) +
          ((2 ^ k : Nat) : ℚ) * ((m / ((2 ^ k : Nat) : Int) : Int) : ℚ) := by
        exact_mod_cast hsplit.symm
      have hk2 : (2 : ℚ) ^ (-(k : Int)) * ((2 ^ k : Nat) : ℚ) = 1 := by
        rw [zpow_neg, zpow_natCast]; push_cast
        exact inv_mul_cancel₀ (by positivity)
      nth_rewrite 1 [hq]
      linear_combination ((m / ((2 ^ k : Nat) : Int) : Int) : ℚ) * hk2

/-- A binary64 number below 1 is at most the predecessor of 1. -/
theorem le_pred_one_of_isRep {x : ℚ} (h : IsRep x) (h1 : x < 1) :
    x ≤ 1 - 1 / 2 ^ 53 := by
  obtain ⟨m, e, he, hm, rfl⟩ := h
  have hmq : (m : ℚ) < 2 ^ 53 := by
    have : m < 2 ^ 53 := lt_of_le_of_lt (le_abs_self m) hm
    exact_mod_cast this
  by_cases hc : -53 ≤ e
  · obtain ⟨k, rfl⟩ : ∃ k : Nat, e = -53 + k := ⟨(e + 53).toNat, by omega⟩
    have hval : (m : ℚ) * 2 ^ (-53 + (k : Int)) = ((m * 2 ^ k : Int) : ℚ) / 2 ^ 53 := by
      rw [two_zpow_add, zpow_natCast]; push_cast; norm_num; ring
    rw [hval] at h1 ⊢
    have h2 : ((m * 2 ^ k : Int) : ℚ) < 2 ^ 53 := by
      rwa [div_lt_one (by positivity)] at h1
    have h3 : m * 2 ^ k < 2 ^ 53 := by exact_mod_cast h2
    have h4 : m * 2 ^ k ≤ 2 ^ 53 - 1 := by omega
    have h5 : ((m * 2 ^ k : Int) : ℚ) ≤ 2 ^ 53 - 1 := by exact_mod_cast h4
    rw [div_le_iff₀ (by positivity)]
    norm_num at h5 ⊢
    linarith
  · have he2 : (2 : ℚ) ^ e ≤ 2 ^ (-54 : Int) := two_zpow_le (by omega)
    have hpe := two_zpow_pos e
    have : (m : ℚ) * 2 ^ e ≤ 2 ^ 53 * 2 ^ (-54 : Int) := by
      rcases le_or_lt 0 (m : ℚ) with hm0 | hm0
      · exact mul_le_mul (le_of_lt hmq) he2 (le_of_lt hpe) (by positivity)
      · have : (m : ℚ) * 2 ^ e < 0 := mul_neg_of_neg_of_pos hm0 hpe
        have : (0 : ℚ) < 2 ^ 53 * 2 ^ (-54 : Int) := by positivity
        linarith
    norm_num at this ⊢
    linarith

theorem flR_pred_billion :
    flR ((1 - 1 / 2 ^ 53) * 1000000000) = 1000000000 - 1 / 2 ^ 23 := by
  rw [flR_eq_of_abs_lt 29 8388607999999999 (by norm_num) (by norm_num) (by norm_num)
    (by rw [abs_lt]; constructor <;> norm_num)]
  norm_num

theorem isDouble_two_pow_62 : IsDouble (2 ^ 62) :=
  isDouble_of_isRep ⟨1, 62, by norm_num, by norm_num, by norm_num⟩ (by norm_num)
    (by norm_num)

theorem timespec64_defined {d : ℚ} (hd : IsDouble d) (h0 : 0 ≤ d) (h1 : d ≤ 2 ^ 62) :
    ∃ nsec : Int, timespec64 d = some (⌊d⌋, nsec) ∧ 0 ≤ ⌊d⌋ ∧ ⌊d⌋ ≤ 2 ^ 62 ∧
      0 ≤ nsec ∧ nsec < 1000000000 := by
  have hrep := isRep_of_isDouble hd h0
  obtain ⟨hfloor, hfract⟩ := isRep_floor_fract hrep h0
  have hf0 : 0 ≤ ⌊d⌋ := Int.floor_nonneg.mpr h0
  have hf1 : ⌊d⌋ ≤ 2 ^ 62 := by
    have : (⌊d⌋ : ℚ) ≤ ((2 ^ 62 : Int) : ℚ) := le_trans (Int.floor_le d) (by push_cast; exact h1)
    exact_mod_cast this
  have hfq0 : (0 : ℚ) ≤ (⌊d⌋ : ℚ) := by exact_mod_cast hf0
  have hfq1 : (⌊d⌋ : ℚ) ≤ 2 ^ 62 := by exact_mod_cast hf1
  have hsec : toInt64 d = some ⌊d⌋ := by
    unfold toInt64
    rw [truncate_of_nonneg h0, if_pos ⟨by omega, by omega⟩]
  have hsecd : fl (⌊d⌋ : ℚ) = some (⌊d⌋ : ℚ) :=
    isDouble_of_isRep hfloor hfq0 (by
      have : (2 : ℚ) ^ 62 < 2 ^ 1024 := by norm_num
      linarith)
  have hfr0 : 0 ≤ d - ⌊d⌋ := sub_nonneg.mpr (Int.floor_le d)
  have hfr1 : d - ⌊d⌋ < 1 := by linarith [Int.lt_floor_add_one d]
  have hfrac : fl (d - ⌊d⌋) = some (d - ⌊d⌋) :=
    isDouble_of_isRep hfract hfr0 (by
      have : (1 : ℚ) < 2 ^ 1024 := by norm_num
      linarith)
  have hpred := le_pred_one_of_isRep hfract hfr1
  have hx0 : 0 ≤ (d - ⌊d⌋) * 1000000000 := by positivity
  have hns1 : flR ((d - ⌊d⌋) * 1000000000) ≤ 1000000000 - 1 / 2 ^ 23 := by
    have := flR_mono hx0 (mul_le_mul_of_nonneg_right hpred (by norm_num))
    rwa [flR_pred_billion] at this
  have hns0 := flR_nonneg hx0
  have hns : fl ((d - ⌊d⌋) * 1000000000) = some (flR ((d - ⌊d⌋) * 1000000000)) :=
    fl_eq_some hx0 (by
      have : (1000000000 : ℚ) - 1 / 2 ^ 23 < 2 ^ 1024 := by norm_num
      linarith)
  have hn0 : 0 ≤ ⌊flR ((d - ⌊d⌋) * 1000000000)⌋ := Int.floor_nonneg.mpr hns0
  have hn1 : ⌊flR ((d - ⌊d⌋) * 1000000000)⌋ < 1000000000 := by
    rw [Int.floor_lt]
    push_cast
    have : (1000000000 : ℚ) - 1 / 2 ^ 23 < 1000000000 := by norm_num
    linarith
  have hnsec : toInt64 (flR ((d - ⌊d⌋) * 1000000000)) =
      some ⌊flR ((d - ⌊d⌋) * 1000000000)⌋ := by
    unfold toInt64
    rw [truncate_of_nonneg hns0, if_pos ⟨by omega, by omega⟩]
  refine ⟨⌊flR ((d - ⌊d⌋) * 1000000000)⌋, ?_, hf0, hf1, hn0, hn1⟩
  simp only [timespec64, hsec, Option.some_bind, hsecd, hfrac, hns, hnsec, Option.map_some']

theorem delay64_defined (p : WaveParams) (hd : IsDouble p.frequency)
    (hf : 1 / 2 ^ 62 ≤ p.frequency) (hs : 1 ≤ p.steps) (hs' : p.steps < 2 ^ 31) :
    ∃ d : ℚ, delay64 p = some d ∧ 0 < d ∧ d ≤ 2 ^ 62 ∧ IsDouble d := by
  have hfpos : 0 < p.frequency := lt_of_lt_of_le (by positivity) hf
  have hflt := lt_of_isDouble hd
  have hinv0 : 0 ≤ 1 / p.frequency := by positivity
  have hinv1 : 1 / p.frequency ≤ 2 ^ 62 := by
    rw [div_le_iff₀ hfpos]
    have := mul_le_mul_of_nonneg_left hf (by positivity : (0 : ℚ) ≤ 2 ^ 62)
    norm_num at this ⊢
    linarith
  obtain ⟨a, b, c, e⟩ := fl_of_le hinv0 hinv1 isDouble_two_pow_62
  have hsq1 : (1 : ℚ) ≤ p.steps := by exact_mod_cast hs
  have hsq2 : (p.steps : ℚ) < 2 ^ 31 := by exact_mod_cast hs'
  have hsq0 : (0 : ℚ) < p.steps := by linarith
  -- the period is at least `2^-1024`
  have hper : (2 : ℚ) ^ (-1024 : Int) ≤ flR (1 / p.frequency) := by
    have hle : (2 : ℚ) ^ (-1024 : Int) ≤ 1 / p.frequency := by
      rw [le_div_iff₀ hfpos, zpow_neg]
      have h3 : ((2 : ℚ) ^ (1024 : Int))⁻¹ * p.frequency < ((2 : ℚ) ^ (1024 : Int))⁻¹ * 2 ^ 1024 :=
        mul_lt_mul_of_pos_left hflt (by positivity)
      have h4 : ((2 : ℚ) ^ (1024 : Int))⁻¹ * 2 ^ 1024 = 1 := by
        rw [zpow_ofNat]; exact inv_mul_cancel₀ (by positivity)
      linarith
    have := flR_mono (le_of_lt (two_zpow_pos _)) hle
    rwa [flR_of_isRep ⟨1, -1024, by norm_num, by norm_num, by norm_num⟩
      (le_of_lt (two_zpow_pos _))] at this
  have hq0 : 0 ≤ flR (1 / p.frequency) / p.steps := div_nonneg b (le_of_lt hsq0)
  have hq1 : flR (1 / p.frequency) / p.steps ≤ flR (1 / p.frequency) :=
    div_le_self b hsq1
  obtain ⟨a2, _, c2, e2⟩ := fl_of_le hq0 hq1 e
  have hge : (2 : ℚ) ^ (-1074 : Int) ≤ flR (1 / p.frequency) / p.steps := by
    rw [le_div_iff₀ hsq0]
    have h5 : (2 : ℚ) ^ (-1074 : Int) * p.steps ≤ 2 ^ (-1074 : Int) * 2 ^ 31 :=
      mul_le_mul_of_nonneg_left (le_of_lt hsq2) (le_of_lt (two_zpow_pos _))
    have h6 : (2 : ℚ) ^ (-1074 : Int) * 2 ^ 31 ≤ 2 ^ (-1024 : Int) := by
      have : (2 : ℚ) ^ (31 : Nat) = 2 ^ (31 : Int) := by norm_num
      rw [this, ← two_zpow_add]
      exact two_zpow_le (by norm_num)
    linarith
  refine ⟨flR (flR (1 / p.frequency) / p.steps), ?_, flR_pos_of_ge hge,
    le_trans c2 c, e2⟩
  simp only [delay64, fdiv64, ne_of_gt hfpos, ne_of_gt hsq0, if_false, a, Option.some_bind, a2]

/-- C18 (as stated, refuted): with frequency 0 the division `1.0 / frequency`,
and with steps 0 the division `period / steps`, is carried out on a zero
divisor; no finite delay results, in particular not the delay 0. -/
theorem delay64_not_clamped :
    delay64 ⟨.WAVE_SINE, 0, 1, 100⟩ = none ∧
    delay64 ⟨.WAVE_SINE, 1, 1, 0⟩ = none ∧
    ((none : Option ℚ) ≠ some 0) := by
  refine ⟨?_, ?_, Option.noConfusion⟩
  · simp [delay64, fdiv64]
  · have h1 : fl (1 / 1) = some 1 := by
      have := isDouble_intCast (n := 1) (by norm_num) (by norm_num)
      unfold IsDouble at this
      simpa using this
    simp [delay64, fdiv64, h1]

/-- The delay for a tiny positive frequency: at `2^-64` Hz and one step it is
`2^64` seconds, which `(time_t) delay` cannot represent, and at the smallest
subnormal frequency `1.0 / frequency` is already infinite. -/
theorem delay64_tiny_frequency :
    delay64 ⟨.WAVE_SINE, 1 / 2 ^ 64, 1, 1⟩ = some (2 ^ 64) ∧
    timespec64 (2 ^ 64) = none ∧
    delay64 ⟨.WAVE_SINE, 1 / 2 ^ 1074, 1, 1⟩ = none := by
  have h64 : fl (2 ^ 64) = some (2 ^ 64) :=
    isDouble_of_isRep ⟨1, 64, by norm_num, by norm_num, by norm_num⟩ (by norm_num)
      (by norm_num)
  have hbig : flR (2 ^ 1074) = 2 ^ 1074 :=
    flR_of_isRep ⟨1, 1074, by norm_num, by norm_num, by norm_num⟩ (by norm_num)
  refine ⟨?_, ?_, ?_⟩
  · have e1 : (1 : ℚ) / (1 / 2 ^ 64) = 2 ^ 64 := by norm_num
    have e2 : (2 : ℚ) ^ 64 / ((1 : Int) : ℚ) = 2 ^ 64 := by norm_num
    simp only [delay64, fdiv64]
    rw [if_neg (by norm_num), e1, h64, Option.some_bind, if_neg (by norm_num), e2, h64]
  · have ht : truncate (2 ^ 64) = 2 ^ 64 := by
      rw [truncate_of_nonneg (by norm_num)]
      have : ((2 : ℚ) ^ 64) = ((2 ^ 64 : Int) : ℚ) := by norm_num
      rw [this, Int.floor_intCast]
    simp only [timespec64, toInt64, ht]
    norm_num
  · have e1 : (1 : ℚ) / (1 / 2 ^ 1074) = 2 ^ 1074 := by norm_num
    simp only [delay64, fdiv64]
    rw [if_neg (by norm_num), e1]
    have : fl (2 ^ 1074) = none := by
      unfold fl
      rw [hbig, if_neg (by rw [abs_of_nonneg (by positivity)]; norm_num)]
    rw [this]
    rfl

/-- C18 (amended): the delay `(1 / frequency) / steps` is computed with no
guard and no clamp: with frequency 0 or steps 0 it has no finite value. For a
frequency of at least `2^-62` Hz and steps `>= 1` the binary64 delay is a
positive finite double of at most `2^62` seconds, and the `timespec` built
from it is defined, with `tv_sec` the integer part of the delay,
`0 <= tv_sec <= 2^62` and `0 <= tv_nsec < 10^9`. -/
theorem delay64_finite_in_range (p : WaveParams) :
    ((p.frequency = 0 ∨ p.steps = 0) → delay64 p = none) ∧
    (IsDouble p.frequency → 1 / 2 ^ 62 ≤ p.frequency → 1 ≤ p.steps → p.steps < 2 ^ 31 →
      ∃ (d : ℚ) (nsec : Int), delay64 p = some d ∧ 0 < d ∧ d ≤ 2 ^ 62 ∧ IsDouble d ∧
        timespec64 d = some (⌊d⌋, nsec) ∧ 0 ≤ ⌊d⌋ ∧ ⌊d⌋ ≤ 2 ^ 62 ∧
        0 ≤ nsec ∧ nsec < 1000000000) := by
  constructor
  · rintro (h | h)
    · simp [delay64, fdiv64, h]
    · simp only [delay64, fdiv64, h, Int.cast_zero, if_true]
      cases (if p.frequency = 0 then none else fl (1 / p.frequency)) <;> rfl
  · intro hd hf hs hs'
    obtain ⟨d, h1, h2, h3, h4⟩ := delay64_defined p hd hf hs hs'
    obtain ⟨nsec, h5, h6, h7, h8, h9⟩ := timespec64_defined h4 (le_of_lt h2) h3
    exact ⟨d, nsec, h1, h2, h3, h4, h5, h6, h7, h8, h9⟩

theorem delay64_finite_in_range_witness :
    delay64 ⟨.WAVE_SINE, 0, 1, 100⟩ = none ∧
    (∃ (d : ℚ) (nsec : Int), delay64 defaultParams = some d ∧ 0 < d ∧ d ≤ 2 ^ 62 ∧
      IsDouble d ∧ timespec64 d = some (⌊d⌋, nsec) ∧ 0 ≤ ⌊d⌋ ∧ ⌊d⌋ ≤ 2 ^ 62 ∧
      0 ≤ nsec ∧ nsec < 1000000000) :=
  ⟨(delay64_finite_in_range ⟨.WAVE_SINE, 0, 1, 100⟩).1 (Or.inl rfl),
   (delay64_finite_in_range defaultParams).2
     (isDouble_of_isRep ⟨1, 0, by norm_num, by norm_num, by norm_num [defaultParams]⟩
       (by norm_num [defaultParams]) (by norm_num [defaultParams]))
     (by norm_num [defaultParams]) (by norm_num [defaultParams])
     (by norm_num [defaultParams])⟩

/-! ## Sawtooth in binary64 -/

theorem zpow_ulpExp_le_max {y : ℚ} (hy : 0 < y) :
    (2 : ℚ) ^ ulpExp y ≤ max (y / 2 ^ 52) (2 ^ (-1074 : Int)) := by
  unfold ulpExp
  rw [abs_of_pos hy]
  rcases max_cases (Int.log 2 y - 52) (-1074) with ⟨a, _⟩ | ⟨a, _⟩
  · rw [a]
    apply le_max_of_le_left
    have h1 : ((2 : Nat) : ℚ) ^ Int.log 2 y ≤ y := Int.zpow_log_le_self (by norm_num) hy
    have h2 : (2 : ℚ) ^ (Int.log 2 y - 52) = 2 ^ Int.log 2 y / 2 ^ 52 := by
      rw [zpow_sub₀ (by norm_num)]; norm_num
    rw [h2]
    exact div_le_div_of_nonneg_right (by exact_mod_cast h1) (by positivity)
  · rw [a]
    exact le_max_right _ _

/-- The rounding error of a ratio in `[0, 1)` is at most `2^-53`. -/
theorem flR_sub_le_of_lt_one {x : ℚ} (h0 : 0 ≤ x) (h1 : x < 1) :
    |flR x - x| ≤ 1 / 2 ^ 53 := by
  rcases eq_or_lt_of_le h0 with hz | hpos
  · rw [← hz, flR_zero]; norm_num
  have h := flR_sub_le x
  have hm := zpow_ulpExp_le_max hpos
  have hb : max (x / 2 ^ 52) ((2 : ℚ) ^ (-1074 : Int)) ≤ 1 / 2 ^ 52 := by
    apply max_le
    · exact div_le_div_of_nonneg_right (le_of_lt h1) (by positivity)
    · have : (2 : ℚ) ^ (-1074 : Int) ≤ 2 ^ (-52 : Int) := two_zpow_le (by norm_num)
      have e : (2 : ℚ) ^ (-52 : Int) = 1 / 2 ^ 52 := by norm_num
      rw [e] at this
      exact this
  have : (2 : ℚ) ^ ulpExp x / 2 ≤ 1 / 2 ^ 53 := by
    have := le_trans hm hb
    norm_num at this ⊢
    linarith
  exact le_trans h this

/-- The rounding error of a product below an amplitude `A >= 2^-1022` is at
most `A * 2^-53`. -/
theorem flR_sub_le_of_le_normal {y A : ℚ} (h0 : 0 ≤ y) (h1 : y ≤ A)
    (hA : 1 / 2 ^ 1022 ≤ A) : |flR y - y| ≤ A / 2 ^ 53 := by
  rcases eq_or_lt_of_le h0 with hz | hpos
  · rw [← hz, flR_zero]
    simp only [sub_self, abs_zero]
    have : (0 : ℚ) < A := lt_of_lt_of_le (by positivity) hA
    positivity
  have h := flR_sub_le y
  have hm := zpow_ulpExp_le_max hpos
  have hb : max (y / 2 ^ 52) ((2 : ℚ) ^ (-1074 : Int)) ≤ A / 2 ^ 52 := by
    apply max_le
    · exact div_le_div_of_nonneg_right h1 (by positivity)
    · rw [le_div_iff₀ (by positivity)]
      have e : (2 : ℚ) ^ (-1074 : Int) * 2 ^ 52 = 1 / 2 ^ 1022 := by
        have : (2 : ℚ) ^ (52 : Nat) = 2 ^ (52 : Int) := by norm_num
        rw [this, ← two_zpow_add]
        norm_num
      rw [e]
      exact hA
  have hc : (2 : ℚ) ^ ulpExp y / 2 ≤ A / 2 ^ 53 := by
    have h2 := le_trans hm hb
    have e : A / 2 ^ 53 = A / 2 ^ 52 / 2 := by ring
    rw [e]
    linarith
  exact le_trans h hc

theorem isDouble_one : IsDouble 1 := by
  have := isDouble_intCast (n := 1) (by norm_num) (by norm_num)
  simpa using this

/-- The ratio `(double)i / steps` for `0 <= i < steps`: a finite double in
`[0, 1]` within `2^-53` of the exact ratio. -/
theorem fdiv64_ratio {i steps : Int} (hi : 0 ≤ i) (hlt : i < steps) :
    fdiv64 i steps = some (flR ((i : ℚ) / steps)) ∧ 0 ≤ flR ((i : ℚ) / steps) ∧
      flR ((i : ℚ) / steps) ≤ 1 ∧ |flR ((i : ℚ) / steps) - (i : ℚ) / steps| ≤ 1 / 2 ^ 53 := by
  have hs : (0 : ℚ) < steps := by exact_mod_cast (by omega : (0 : Int) < steps)
  have hiq : (0 : ℚ) ≤ i := by exact_mod_cast hi
  have hltq : (i : ℚ) < steps := by exact_mod_cast hlt
  have h0 : 0 ≤ (i : ℚ) / steps := div_nonneg hiq (le_of_lt hs)
  have h1 : (i : ℚ) / steps < 1 := (div_lt_one hs).mpr hltq
  obtain ⟨a, b, c, _⟩ := fl_of_le h0 (le_of_lt h1) isDouble_one
  refine ⟨?_, b, c, flR_sub_le_of_lt_one h0 h1⟩
  simp only [fdiv64, ne_of_gt hs, if_false, a]

theorem sawtoothValue64_eq (p : WaveParams) (hd : IsDouble p.amplitude)
    (hA : 0 ≤ p.amplitude) {i : Int} (hi : 0 ≤ i) (hlt : i < p.steps) :
    sawtoothValue64 p i = some (flR (flR ((i : ℚ) / p.steps) * p.amplitude)) := by
  obtain ⟨a, b, c, _⟩ := fdiv64_ratio hi hlt
  have h0 : 0 ≤ flR ((i : ℚ) / p.steps) * p.amplitude := mul_nonneg b hA
  have h1 : flR ((i : ℚ) / p.steps) * p.amplitude ≤ p.amplitude := by
    have := mul_le_mul_of_nonneg_right c hA
    linarith
  obtain ⟨a2, _, _, _⟩ := fl_of_le h0 h1 hd
  simp only [sawtoothValue64, a, Option.some_bind, a2]

/-- C6 (as stated, refuted): with amplitude 0.0 and steps = 2 the Sawtooth
samples at `i = 0` and `j = 1` are both 0; and with the smallest positive
amplitude `2^-1074` and steps = 4 the products underflow, so that the samples
at `i = 0`, 1 and 2 are all 0. -/
theorem sawtooth64_flat :
    sawtoothValue64 ⟨.WAVE_SAWTOOTH, 1, 0, 2⟩ 0 = some 0 ∧
    sawtoothValue64 ⟨.WAVE_SAWTOOTH, 1, 0, 2⟩ 1 = some 0 ∧
    IsDouble (1 / 2 ^ 1074) ∧
    sawtoothValue64 ⟨.WAVE_SAWTOOTH, 1, 1 / 2 ^ 1074, 4⟩ 0 = some 0 ∧
    sawtoothValue64 ⟨.WAVE_SAWTOOTH, 1, 1 / 2 ^ 1074, 4⟩ 1 = some 0 ∧
    sawtoothValue64 ⟨.WAVE_SAWTOOTH, 1, 1 / 2 ^ 1074, 4⟩ 2 = some 0 ∧
    ¬ ((0 : ℚ) < 0) := by
  have hz : IsDouble 0 := isDouble_of_isRep isRep_zero (le_refl _) (by norm_num)
  have hmin : IsDouble (1 / 2 ^ 1074) :=
    isDouble_of_isRep ⟨1, -1074, by norm_num, by norm_num, by norm_num⟩ (by norm_num)
      (by norm_num)
  have r0 : flR (((0 : Int) : ℚ) / ((2 : Int) : ℚ)) = 0 := by norm_num [flR_zero]
  have r0' : flR (((0 : Int) : ℚ) / ((4 : Int) : ℚ)) = 0 := by norm_num [flR_zero]
  have r1 : flR (((1 : Int) : ℚ) / ((4 : Int) : ℚ)) = 1 / 4 := by
    have := flR_of_isRep (x := 1 / 4) ⟨1, -2, by norm_num, by norm_num, by norm_num⟩
      (by norm_num)
    norm_num at this ⊢
    exact this
  have r2 : flR (((2 : Int) : ℚ) / ((4 : Int) : ℚ)) = 1 / 2 := by
    have := flR_of_isRep (x := 1 / 2) ⟨1, -1, by norm_num, by norm_num, by norm_num⟩
      (by norm_num)
    norm_num at this ⊢
    exact this
  have sub : ∀ r : ℚ, 0 < r → r ≤ 1 / 2 → flR (r * (1 / 2 ^ 1074)) = 0 := by
    intro r hr0 hr1
    have hx : 0 < r * (1 / 2 ^ 1074) := by positivity
    have hu : ulpExp (r * (1 / 2 ^ 1074)) = -1074 := by
      apply ulpExp_eq_of_subnormal hx
      have e : (2 : ℚ) ^ (-1022 : Int) = 2 ^ 52 * (1 / 2 ^ 1074) := by norm_num
      rw [e]
      exact mul_lt_mul_of_pos_right (by norm_num; linarith) (by positivity)
    have hq : r * (1 / 2 ^ 1074) / 2 ^ (-1074 : Int) = r := by
      have : (2 : ℚ) ^ (-1074 : Int) = 1 / 2 ^ 1074 := by norm_num
      rw [this]
      field_simp
    unfold flR
    rw [hu, hq]
    have hfl : ⌊r⌋ = 0 := by
      rw [Int.floor_eq_iff]; constructor <;> push_cast <;> linarith
    have hround : roundHalfEven r = 0 := by
      unfold roundHalfEven
      rw [hfl]
      rcases lt_or_eq_of_le hr1 with h | h
      · rw [if_pos (by push_cast; linarith)]
      · rw [if_neg (by push_cast; linarith), if_neg (by push_cast; linarith)]
        simp
    rw [hround]
    simp
  have v0 := sawtoothValue64_eq ⟨.WAVE_SAWTOOTH, 1, 0, 2⟩ hz (le_refl _) (i := 0) (le_refl _)
    (by norm_num)
  have v1 := sawtoothValue64_eq ⟨.WAVE_SAWTOOTH, 1, 0, 2⟩ hz (le_refl _) (i := 1)
    (by norm_num) (by norm_num)
  have hA : (0 : ℚ) ≤ 1 / 2 ^ 1074 := by positivity
  have w0 := sawtoothValue64_eq ⟨.WAVE_SAWTOOTH, 1, 1 / 2 ^ 1074, 4⟩ hmin hA (i := 0)
    (le_refl _) (by norm_num)
  have w1 := sawtoothValue64_eq ⟨.WAVE_SAWTOOTH, 1, 1 / 2 ^ 1074, 4⟩ hmin hA (i := 1)
    (by norm_num) (by norm_num)
  have w2 := sawtoothValue64_eq ⟨.WAVE_SAWTOOTH, 1, 1 / 2 ^ 1074, 4⟩ hmin hA (i := 2)
    (by norm_num) (by norm_num)
  simp only [mul_zero, flR_zero] at v0 v1
  simp only [r0', zero_mul, flR_zero] at w0
  simp only [r1] at w1
  simp only [r2] at w2
  rw [sub (1 / 4) (by norm_num) (by norm_num)] at w1
  rw [sub (1 / 2) (by norm_num) (by norm_num)] at w2
  exact ⟨v0, v1, hmin, w0, w1, w2, lt_irrefl 0⟩

/-- C6 (amended): for every steps `>= 1` and every finite amplitude `A >= 0`
the binary64 Sawtooth sample `(i / steps) * A` is non-decreasing in `i` over
`0 <= i < steps`, and it is strictly increasing for every amplitude
`A >= 2^-1022`, the smallest positive normal double. -/
theorem sawtooth64_increasing (p : WaveParams) (hs : p.steps < 2 ^ 31)
    (hd : IsDouble p.amplitude) (hA : 0 ≤ p.amplitude) (i j : Int) (hi : 0 ≤ i)
    (hij : i < j) (hj : j < p.steps) :
    ∃ vi vj : ℚ, sawtoothValue64 p i = some vi ∧ sawtoothValue64 p j = some vj ∧
      vi ≤ vj ∧ (1 / 2 ^ 1022 ≤ p.amplitude → vi < vj) := by
  obtain ⟨_, bi, ci, ei⟩ := fdiv64_ratio hi (lt_trans hij hj)
  obtain ⟨_, bj, cj, ej⟩ := fdiv64_ratio (le_of_lt (lt_of_le_of_lt hi hij)) hj
  have hsq : (0 : ℚ) < p.steps := by exact_mod_cast (by omega : (0 : Int) < p.steps)
  have hsq' : (p.steps : ℚ) < 2 ^ 31 := by exact_mod_cast hs
  -- the exact ratios are at least `1 / steps` apart
  have hgap : (i : ℚ) / p.steps + 1 / p.steps ≤ (j : ℚ) / p.steps := by
    rw [← add_div]
    apply div_le_div_of_nonneg_right _ (le_of_lt hsq)
    have : i + 1 ≤ j := by omega
    exact_mod_cast this
  have hinv : (1 : ℚ) / 2 ^ 31 < 1 / p.steps := one_div_lt_one_div_of_lt hsq hsq'
  have hr : flR ((i : ℚ) / p.steps) + (1 / 2 ^ 31 - 1 / 2 ^ 52) <
      flR ((j : ℚ) / p.steps) := by
    have a1 := (abs_le.mp ei).2
    have a2 := (abs_le.mp ej).1
    have e : (1 : ℚ) / 2 ^ 52 = 1 / 2 ^ 53 + 1 / 2 ^ 53 := by norm_num
    linarith
  have hrle : flR ((i : ℚ) / p.steps) ≤ flR ((j : ℚ) / p.steps) := by
    have : (0 : ℚ) < 1 / 2 ^ 31 - 1 / 2 ^ 52 := by norm_num
    linarith
  have hyi0 : 0 ≤ flR ((i : ℚ) / p.steps) * p.amplitude := mul_nonneg bi hA
  have hyj0 : 0 ≤ flR ((j : ℚ) / p.steps) * p.amplitude := mul_nonneg bj hA
  have hyi1 : flR ((i : ℚ) / p.steps) * p.amplitude ≤ p.amplitude := by
    have := mul_le_mul_of_nonneg_right ci hA
    linarith
  have hyj1 : flR ((j : ℚ) / p.steps) * p.amplitude ≤ p.amplitude := by
    have := mul_le_mul_of_nonneg_right cj hA
    linarith
  refine ⟨_, _, sawtoothValue64_eq p hd hA hi (lt_trans hij hj),
    sawtoothValue64_eq p hd hA (le_of_lt (lt_of_le_of_lt hi hij)) hj,
    flR_mono hyi0 (mul_le_mul_of_nonneg_right hrle hA), ?_⟩
  intro hnorm
  have hApos : 0 < p.amplitude := lt_of_lt_of_le (by positivity) hnorm
  have e1 := (abs_le.mp (flR_sub_le_of_le_normal hyi0 hyi1 hnorm)).2
  have e2 := (abs_le.mp (flR_sub_le_of_le_normal hyj0 hyj1 hnorm)).1
  have hprod : flR ((i : ℚ) / p.steps) * p.amplitude +
      (1 / 2 ^ 31 - 1 / 2 ^ 52) * p.amplitude <
      flR ((j : ℚ) / p.steps) * p.amplitude := by
    have := mul_lt_mul_of_pos_right hr hApos
    linarith
  have hnum : p.amplitude / 2 ^ 53 + p.amplitude / 2 ^ 53 <
      (1 / 2 ^ 31 - 1 / 2 ^ 52) * p.amplitude := by
    have : (1 : ℚ) / 2 ^ 53 + 1 / 2 ^ 53 < 1 / 2 ^ 31 - 1 / 2 ^ 52 := by norm_num
    have := mul_lt_mul_of_pos_right this hApos
    linarith
  linarith

theorem sawtooth64_increasing_witness :
    ∃ vi vj : ℚ, sawtoothValue64 ⟨.WAVE_SAWTOOTH, 1, 1, 4⟩ 1 = some vi ∧
      sawtoothValue64 ⟨.WAVE_SAWTOOTH, 1, 1, 4⟩ 3 = some vj ∧ vi < vj :=
  (sawtooth64_increasing ⟨.WAVE_SAWTOOTH, 1, 1, 4⟩ (by norm_num) isDouble_one (by norm_num)
    1 3 (by norm_num) (by norm_num) (by norm_num)).imp fun _ h =>
      h.imp fun _ h2 => ⟨h2.1, h2.2.1, h2.2.2.2 (by norm_num)⟩

end Waveform
